import Mathlib

set_option maxRecDepth 8000
set_option maxHeartbeats 1000000
set_option linter.unusedSectionVars false

/-!
Shallow embedding of the `compact` crate's core containers: the relocatable
vector `CompactVec` (src/compact_vec.rs) and the open-addressing quadratic
probing hash map `OpenAddressingMap` (src/compact_hash_map.rs), together with
the relocation protocol operations (`compact` / `decompact`) each implements.

Machine integers of the source (`u32` counters, `usize` indices) are modelled
as `Nat`: every quantity involved stays far below `2^32` in all states the
theorems quantify over, so wrap-around never occurs in the source either.
Raw memory is abstracted to its observable content: a vector is its element
list, its `cap` field and the mode tag of its dual-mode pointer.
-/

namespace CompactRS

/-- Storage mode of the dual-mode pointer. -/
inductive PtrMode : Type where
  | compact : PtrMode
  | free : PtrMode
deriving DecidableEq

/-- Modelled from the spec: the dual-mode pointer of pointer_to_maybe_compact.rs is
not under src, so it is modelled from spec section 4.2: a single machine word tagged
as owned-free versus embedded-compact, whose default is a null pointer in compact
mode. Only the tag and nullness are observable. -/
structure PointerToMaybeCompact : Type where
  isNull : Bool
  mode : PtrMode
deriving DecidableEq

namespace PointerToMaybeCompact

/-- Modelled from the spec: default() gives a null pointer in compact mode. -/
def default : PointerToMaybeCompact := ⟨true, PtrMode.compact⟩

/-- Modelled from the spec: set_to_free(p) makes the pointer point at freshly
allocated heap memory, in free mode. -/
def set_to_free (_p : PointerToMaybeCompact) : PointerToMaybeCompact := ⟨false, PtrMode.free⟩

/-- Modelled from the spec: set_to_compact(p) makes the pointer point into the
enclosing relocation region, in compact mode. -/
def set_to_compact (_p : PointerToMaybeCompact) : PointerToMaybeCompact := ⟨false, PtrMode.compact⟩

/-- Modelled from the spec: is_compact queries the mode tag. -/
def is_compact (p : PointerToMaybeCompact) : Bool :=
  match p.mode with
  | PtrMode.compact => true
  | PtrMode.free => false

end PointerToMaybeCompact

/-- Model of `CompactVec` (compact_vec.rs). The observable state is the list of
the `len` initialized elements, the `cap` field, and the dual-mode pointer. -/
structure CompactVec (α : Type) : Type where
  ptr : PointerToMaybeCompact
  elems : List α
  cap : Nat
deriving DecidableEq

namespace CompactVec

/-- CompactVec::new. -/
def new {α : Type} : CompactVec α := ⟨PointerToMaybeCompact.default, [], 0⟩

/-- CompactVec::with_capacity: starts from the default pointer and immediately
sets it to freshly allocated free storage of the given capacity. -/
def with_capacity {α : Type} (cap : Nat) : CompactVec α :=
  ⟨PointerToMaybeCompact.set_to_free PointerToMaybeCompact.default, [], cap⟩

/-- CompactVec::double_buf: allocate a doubled buffer, write the decompacted form
of every element into it, and switch the pointer to free mode. `dElem` is the
element type's `Compact::decompact`. -/
def double_buf {α : Type} (dElem : α → α) (v : CompactVec α) : CompactVec α :=
  ⟨PointerToMaybeCompact.set_to_free v.ptr, v.elems.map dElem,
    if v.cap = 0 then 1 else v.cap * 2⟩

/-- CompactVec::push: grow via double_buf when len == cap, then append. -/
def push {α : Type} (dElem : α → α) (v : CompactVec α) (value : α) : CompactVec α :=
  let v1 := if v.elems.length = v.cap then double_buf dElem v else v
  ⟨v1.ptr, v1.elems ++ [value], v1.cap⟩

/-- CompactVec::push_at: identical body to push; the position argument is unused
in the source (`pub fn push_at(&mut self, _: usize, value: T)`). -/
def push_at {α : Type} (dElem : α → α) (v : CompactVec α) (_pos : Nat) (value : α) : CompactVec α :=
  let v1 := if v.elems.length = v.cap then double_buf dElem v else v
  ⟨v1.ptr, v1.elems ++ [value], v1.cap⟩

/-- Compact::is_still_compact for CompactVec: the pointer is compact and, when the
element type needs drop, every element is still compact. -/
def is_still_compact {α : Type} (needsDropT : Bool) (elemCompact : α → Bool)
    (v : CompactVec α) : Bool :=
  if needsDropT then v.ptr.is_compact && v.elems.all elemCompact
  else v.ptr.is_compact

/-- Compact::compact for CompactVec: len and cap are copied, the destination
pointer is set to compact mode at the supplied tail, and elements are written
compacted element-wise when the element type needs drop, else copied. -/
def compact {α : Type} (needsDropT : Bool) (cElem : α → α) (v : CompactVec α) : CompactVec α :=
  ⟨PointerToMaybeCompact.set_to_compact v.ptr,
    if needsDropT then v.elems.map cElem else v.elems, v.cap⟩

/-- Compact::decompact for CompactVec: a compact-mode vector of droppable elements
is rebuilt by collecting the decompacted elements (the collect allocates free
storage of exactly the element count); otherwise the fields are read bytewise. -/
def decompact {α : Type} (needsDropT : Bool) (dElem : α → α) (v : CompactVec α) : CompactVec α :=
  if v.ptr.is_compact then
    if needsDropT then
      ⟨PointerToMaybeCompact.set_to_free PointerToMaybeCompact.default,
        v.elems.map dElem, (v.elems.map dElem).length⟩
    else v
  else v

end CompactVec

/-- Executable primality test by trial division over the divisors 2..n-1. -/
def isPrimeB (n : Nat) : Bool :=
  decide (2 ≤ n) && (List.range (n - 2)).all (fun d => decide (n % (d + 2) ≠ 0))

/-- Bounded upward search for the first prime at or after the candidate. -/
def findPrimeFrom : Nat → Nat → Nat
  | 0, n => n
  | fuel+1, n => if isPrimeB n then n else findPrimeFrom fuel (n + 1)

/-- find_next_prime (compact_hash_map.rs): the smallest prime that is at least n.
The source reads it off a global sieve of the primes below one million; the model
searches upward (fuel n+2 suffices by Bertrand's postulate), which agrees with
the sieve on every size it covers. -/
def find_next_prime (n : Nat) : Nat := findPrimeFrom (n + 2) n

/-- First index i in [start, start + fuel) satisfying p, scanning upward. This is
the shape of the bounded probe loops driven by the quadratic probing iterators,
whose `next` returns None once cap probes have been taken. -/
def firstFrom (p : Nat → Bool) : Nat → Nat → Option Nat
  | _start, 0 => none
  | start, fuel+1 => if p start then some start else firstFrom p (start + 1) fuel

/-- QuadraticProbingIterator::next: the i-th probed slot for hash h over N buckets
is (h + i*i) % N. -/
def probeIdx (h N i : Nat) : Nat := (h + i * i) % N

/-- Entry (compact_hash_map.rs): cached 32-bit hash, tombstone flag, optional
key/value payload. -/
structure Entry (K V : Type) : Type where
  hash : Nat
  tombstoned : Bool
  inner : Option (K × V)
deriving DecidableEq

namespace Entry

/-- Default::default for Entry. -/
def default {K V : Type} : Entry K V := ⟨0, false, none⟩

/-- Entry::used: tombstoned or holding a payload. -/
def used {K V : Type} (e : Entry K V) : Bool := e.tombstoned || e.inner.isSome

/-- Entry::alive: currently holding a payload. -/
def alive {K V : Type} (e : Entry K V) : Bool := e.inner.isSome

/-- Entry::free: no payload and not tombstoned. -/
def free {K V : Type} (e : Entry K V) : Bool := e.inner.isNone && !e.tombstoned

/-- Entry::is_this: alive with exactly this key. -/
def is_this {K V : Type} [DecidableEq K] (e : Entry K V) (key : K) : Bool :=
  match e.inner with
  | some kv => decide (kv.1 = key)
  | none => false

/-- Entry::make_used: store the cached hash and the payload. The tombstone flag
is not touched by the source. -/
def make_used {K V : Type} (e : Entry K V) (h : Nat) (key : K) (value : V) : Entry K V :=
  ⟨h, e.tombstoned, some (key, value)⟩

/-- Entry::replace_value: overwrite the value, returning the old one. -/
def replace_value {K V : Type} (e : Entry K V) (new_val : V) : Option V × Entry K V :=
  match e.inner with
  | none => (none, e)
  | some kv => (some kv.2, ⟨e.hash, e.tombstoned, some (kv.1, new_val)⟩)

/-- Entry::remove: clear the payload, set the tombstone flag, return the old value. -/
def remove {K V : Type} (e : Entry K V) : Option V × Entry K V :=
  (e.inner.map Prod.snd, ⟨e.hash, true, none⟩)

/-- Compact::compact for Entry: hash and tombstone copied; the value is compacted
recursively exactly when the value type needs drop. -/
def compact {K V : Type} (needsDropV : Bool) (cV : V → V) (e : Entry K V) : Entry K V :=
  ⟨e.hash, e.tombstoned,
    if needsDropV then e.inner.map (fun kv => (kv.1, cV kv.2)) else e.inner⟩

/-- Compact::decompact for Entry. -/
def decompact {K V : Type} (needsDropV : Bool) (dV : V → V) (e : Entry K V) : Entry K V :=
  match e.inner with
  | none => ⟨e.hash, e.tombstoned, none⟩
  | some kv =>
    if needsDropV then ⟨e.hash, e.tombstoned, some (kv.1, dV kv.2)⟩
    else ⟨e.hash, e.tombstoned, some kv⟩

end Entry

/-- OpenAddressingMap (compact_hash_map.rs): alive and used counters plus the
bucket vector, which the constructors fully materialize (len == cap). -/
structure OpenAddressingMap (K V : Type) : Type where
  number_alive : Nat
  number_used : Nat
  entries : CompactVec (Entry K V)
deriving DecidableEq

namespace OpenAddressingMap

variable {K V : Type}

/-- entries.capacity(), the bucket count used by the probing iterators. -/
def capacity (m : OpenAddressingMap K V) : Nat := m.entries.cap

/-- Indexing `self.entries[idx]`. Every reachable map keeps len == cap, so the
default is never returned on the indices the operations probe. -/
def entryAt (m : OpenAddressingMap K V) (idx : Nat) : Entry K V :=
  m.entries.elems.getD idx Entry.default

/-- Writing through `self.entries[idx]`. -/
def setEntry (m : OpenAddressingMap K V) (idx : Nat) (e : Entry K V) :
    OpenAddressingMap K V :=
  ⟨m.number_alive, m.number_used, ⟨m.entries.ptr, m.entries.elems.set idx e, m.entries.cap⟩⟩

/-- Number of alive entries actually present in a bucket list. -/
def countAlive (l : List (Entry K V)) : Nat := l.countP (fun e => e.alive)

/-- Number of used (alive or tombstoned) entries actually present in a bucket list. -/
def countUsed (l : List (Entry K V)) : Nat := l.countP (fun e => e.used)

/-- OpenAddressingMap::with_capacity: a fully materialized bucket vector of
find_next_prime l default entries (vec![default; p].into() gives len == cap == p
and a free-mode pointer), with both counters zero. -/
def with_capacity (l : Nat) : OpenAddressingMap K V :=
  ⟨0, 0, ⟨PointerToMaybeCompact.set_to_free PointerToMaybeCompact.default,
    List.replicate (find_next_prime l) Entry.default, find_next_prime l⟩⟩

/-- OpenAddressingMap::new. -/
def new : OpenAddressingMap K V := with_capacity 4

variable [DecidableEq K] (hash : K → Nat)

/-- The probe step at which insert's loop stops: the first i < cap whose slot is
free or holds this key. -/
def insert_stop (m : OpenAddressingMap K V) (k : K) : Option Nat :=
  firstFrom (fun i =>
    (entryAt m (probeIdx (hash k) (capacity m) i)).free ||
    (entryAt m (probeIdx (hash k) (capacity m) i)).is_this k) 0 (capacity m)

/-- insert_inner_inner: walk the probe sequence; place at the first free slot or
overwrite the matching alive entry. `none` is the `should have place` branch. -/
def insert_inner_inner (m : OpenAddressingMap K V) (k : K) (v : V) :
    Option (Option V × OpenAddressingMap K V) :=
  match insert_stop hash m k with
  | none => none
  | some i =>
    let idx := probeIdx (hash k) (capacity m) i
    let e := entryAt m idx
    if e.free then some (none, setEntry m idx (e.make_used (hash k) k v))
    else
      let r := e.replace_value v
      some (r.1, setEntry m idx r.2)

/-- insert_inner: bump both counters exactly when no prior value was returned. -/
def insert_inner (m : OpenAddressingMap K V) (k : K) (v : V) :
    Option (Option V × OpenAddressingMap K V) :=
  match insert_inner_inner hash m k v with
  | none => none
  | some (none, m1) =>
      some (none, ⟨m1.number_alive + 1, m1.number_used + 1, m1.entries⟩)
  | some (some old, m1) => some (some old, m1)

variable (needsDropV : Bool) (dV : V → V)

/-- CompactVec::drain as used by ensure_capacity: decompact the bucket vector and
iterate over its elements. `dV` is the value type's `Compact::decompact` and
`needsDropV` whether the value type needs drop (an `Entry<K, V>` needs drop
exactly when `V` does). -/
def drainList (m : OpenAddressingMap K V) : List (Entry K V) :=
  (CompactVec.decompact needsDropV (Entry.decompact needsDropV dV) m.entries).elems

/-- insert_inner_growing = ensure_capacity then insert_inner. The source's
recursion (the rebuild re-inserts through the full insert, which calls
ensure_capacity again) is not structural, so it is driven by explicit fuel
bounding the rebuild nesting depth; `insert` below supplies fuel that exceeds
the largest possible depth, so the fuel-exhaustion `none` is never the reason
a result is `none`. -/
def insertGo : Nat → OpenAddressingMap K V → K → V →
    Option (Option V × OpenAddressingMap K V)
  | 0, _, _, _ => none
  | fuel+1, m, k, v =>
    let ec : Option (OpenAddressingMap K V) :=
      if m.number_used > capacity m / 2 then
        let new_capacity :=
          if capacity m - m.number_alive > capacity m / 2 then capacity m
          else capacity m * 2
        (drainList needsDropV dV m).foldl
          (fun acc e => acc.bind fun accm =>
            match e.inner with
            | some kv => (insertGo fuel accm kv.1 kv.2).map Prod.snd
            | none => some accm)
          (some (with_capacity new_capacity))
      else some m
    ec.bind fun m1 => insert_inner hash m1 k v

/-- ensure_capacity: when more than half the slots are used, rebuild at
find_next_prime of (cap if the dead fraction dominates, else cap * 2),
re-inserting only the alive drained entries through the full insert. -/
def ensure_capacityGo (fuel : Nat) (m : OpenAddressingMap K V) :
    Option (OpenAddressingMap K V) :=
  if m.number_used > capacity m / 2 then
    let new_capacity :=
      if capacity m - m.number_alive > capacity m / 2 then capacity m
      else capacity m * 2
    (drainList needsDropV dV m).foldl
      (fun acc e => acc.bind fun accm =>
        match e.inner with
        | some kv => (insertGo hash needsDropV dV fuel accm kv.1 kv.2).map Prod.snd
        | none => some accm)
      (some (with_capacity new_capacity))
  else some m

/-- OpenAddressingMap::insert. Fuel countAlive + 2 strictly exceeds the nesting
depth of rebuilds (each nested rebuild re-inserts strictly fewer alive entries),
so this equals the source's unbounded recursion wherever that terminates. -/
def insert (m : OpenAddressingMap K V) (k : K) (v : V) :
    Option (Option V × OpenAddressingMap K V) :=
  insertGo hash needsDropV dV (countAlive m.entries.elems + 2) m k v

/-- ensure_capacity at the same fuel insert grants its rebuild. -/
def ensure_capacity (m : OpenAddressingMap K V) : Option (OpenAddressingMap K V) :=
  ensure_capacityGo hash needsDropV dV (countAlive m.entries.elems + 1) m

/-- remove_inner_inner: walk the probe sequence, tombstone the first matching
alive entry. A miss leaves the map unchanged. -/
def remove_inner_inner (m : OpenAddressingMap K V) (k : K) :
    Option V × OpenAddressingMap K V :=
  match firstFrom (fun i =>
      (entryAt m (probeIdx (hash k) (capacity m) i)).is_this k) 0 (capacity m) with
  | none => (none, m)
  | some i =>
    let idx := probeIdx (hash k) (capacity m) i
    let r := (entryAt m idx).remove
    (r.1, setEntry m idx r.2)

/-- OpenAddressingMap::remove: decrement number_alive exactly when a value was
removed; number_used is never decremented (tombstones stay used). -/
def remove (m : OpenAddressingMap K V) (k : K) : Option V × OpenAddressingMap K V :=
  let r := remove_inner_inner hash m k
  match r.1 with
  | some old => (some old, ⟨r.2.number_alive - 1, r.2.number_used, r.2.entries⟩)
  | none => (none, r.2)

/-- find_used's probe step: the first i < cap whose slot holds this key. The
source's loop does not stop early at free slots. -/
def find_used_idx (m : OpenAddressingMap K V) (k : K) : Option Nat :=
  firstFrom (fun i =>
    (entryAt m (probeIdx (hash k) (capacity m) i)).is_this k) 0 (capacity m)

/-- OpenAddressingMap::get = find_used(query).and_then(value_option). -/
def get (m : OpenAddressingMap K V) (k : K) : Option V :=
  match find_used_idx hash m k with
  | none => none
  | some i => (entryAt m (probeIdx (hash k) (capacity m) i)).inner.map Prod.snd

/-- OpenAddressingMap::contains_key. -/
def contains_key (m : OpenAddressingMap K V) (k : K) : Bool := (get hash m k).isSome

end OpenAddressingMap

namespace OpenAddressingMap

variable {K I : Type} [DecidableEq K] (hash : K → Nat)
  (needsDropV : Bool) (dV : CompactVec I → CompactVec I) (dI : I → I)

/-- push_at_inner's probe walk: push onto the first matching alive entry's inner
vector, or place a fresh one-element vector at the first unused slot. Returns
whether a new entry was created; `none` is the `should always have place` branch.
`dI` is the inner element type's `Compact::decompact` (used by the inner push's
double_buf). -/
def push_at_inner (m : OpenAddressingMap K (CompactVec I)) (k : K) (item : I) :
    Option (Bool × OpenAddressingMap K (CompactVec I)) :=
  match firstFrom (fun i =>
      (entryAt m (probeIdx (hash k) (capacity m) i)).is_this k ||
      !(entryAt m (probeIdx (hash k) (capacity m) i)).used) 0 (capacity m) with
  | none => none
  | some i =>
    let idx := probeIdx (hash k) (capacity m) i
    let e := entryAt m idx
    if e.is_this k then
      some (false, setEntry m idx
        ⟨e.hash, e.tombstoned, e.inner.map (fun kv => (kv.1, CompactVec.push dI kv.2 item))⟩)
    else
      some (true, setEntry m idx
        (e.make_used (hash k) k (CompactVec.push dI CompactVec.new item)))

/-- push_at with explicit fuel for its ensure_capacity. -/
def push_atGo (fuel : Nat) (m : OpenAddressingMap K (CompactVec I)) (k : K) (item : I) :
    Option (OpenAddressingMap K (CompactVec I)) :=
  (ensure_capacityGo hash needsDropV dV fuel m).bind fun m1 =>
    (push_at_inner hash dI m1 k item).map fun r =>
      if r.1 then ⟨r.2.number_alive + 1, r.2.number_used + 1, r.2.entries⟩ else r.2

/-- OpenAddressingMap::push_at: ensure capacity, then the probe walk, bumping
both counters exactly when a new entry was created. -/
def push_at (m : OpenAddressingMap K (CompactVec I)) (k : K) (item : I) :
    Option (OpenAddressingMap K (CompactVec I)) :=
  push_atGo hash needsDropV dV dI (countAlive m.entries.elems + 1) m k item

/-- The map states reachable from the constructors by the public mutating
operations insert, remove and push_at (new() is with_capacity(4)). -/
inductive Reachable : OpenAddressingMap K (CompactVec I) → Prop where
  | base (n : Nat) : Reachable (with_capacity n)
  | ins {m : OpenAddressingMap K (CompactVec I)} {k : K} {v : CompactVec I}
      {r : Option (CompactVec I)} {m1 : OpenAddressingMap K (CompactVec I)} :
      Reachable m → insert hash needsDropV dV m k v = some (r, m1) → Reachable m1
  | rem {m : OpenAddressingMap K (CompactVec I)} {k : K} :
      Reachable m → Reachable (remove hash m k).2
  | pushStep {m : OpenAddressingMap K (CompactVec I)} {k : K} {item : I}
      {m1 : OpenAddressingMap K (CompactVec I)} :
      Reachable m → push_at hash needsDropV dV dI m k item = some m1 → Reachable m1

end OpenAddressingMap

namespace OpenAddressingMap

variable {K V : Type} [DecidableEq K] (hash : K → Nat)

/-- Modelled from the spec: the reference lookup of spec section 4.4: walk the
probe sequence; a free (never used, non-tombstoned) slot is a miss, an alive
entry with this key is a hit, tombstoned or other-keyed alive slots are skipped,
and exhausting cap probes is a miss. -/
def specLookup (m : OpenAddressingMap K V) (k : K) : Option V :=
  match firstFrom (fun i =>
      (entryAt m (probeIdx (hash k) (capacity m) i)).free ||
      (entryAt m (probeIdx (hash k) (capacity m) i)).is_this k) 0 (capacity m) with
  | none => none
  | some i =>
    if (entryAt m (probeIdx (hash k) (capacity m) i)).free then none
    else (entryAt m (probeIdx (hash k) (capacity m) i)).inner.map Prod.snd

/-- Compact::compact for OpenAddressingMap: copy both counters and compact the
bucket vector (whose element compaction is Entry's). -/
def compact (needsDropV : Bool) (cV : V → V) (m : OpenAddressingMap K V) :
    OpenAddressingMap K V :=
  ⟨m.number_alive, m.number_used,
    CompactVec.compact needsDropV (Entry.compact needsDropV cV) m.entries⟩

/-- Compact::decompact for OpenAddressingMap. -/
def decompact (needsDropV : Bool) (dV : V → V) (m : OpenAddressingMap K V) :
    OpenAddressingMap K V :=
  ⟨m.number_alive, m.number_used,
    CompactVec.decompact needsDropV (Entry.decompact needsDropV dV) m.entries⟩

/-- The key/value pairs of the alive entries, in bucket order. -/
def pairsList (m : OpenAddressingMap K V) : List (K × V) :=
  m.entries.elems.filterMap Entry.inner

/-- Lookup in a key/value pair list: the value of the first pair with this key. -/
def lookupPairs (ps : List (K × V)) (k : K) : Option V :=
  (ps.find? (fun kv => decide (kv.1 = k))).map Prod.snd

/-- Sequencing a list of key/value pairs left to right through insert, as the
spec's bulk scenarios do. -/
def insertSeq (needsDropV : Bool) (dV : V → V) :
    OpenAddressingMap K V → List (K × V) → Option (OpenAddressingMap K V)
  | m, [] => some m
  | m, kv :: ps =>
    (insert hash needsDropV dV m kv.1 kv.2).bind fun r => insertSeq needsDropV dV r.2 ps

/-- Sequencing a list of keys left to right through remove. -/
def removeSeq : OpenAddressingMap K V → List K → OpenAddressingMap K V
  | m, [] => m
  | m, k2 :: ks => removeSeq (remove hash m k2).2 ks

end OpenAddressingMap

/-- The counter and capacity transition of one fresh-key insert, read off the
code path (state (number_alive, number_used, capacity)): when more than half the
slots are used ensure_capacity first rebuilds, compacting number_used down to
number_alive and applying the capacity rule; then the placement bumps both
counters. -/
def insStep (s : Nat × Nat × Nat) : Nat × Nat × Nat :=
  if s.2.1 > s.2.2 / 2 then
    (s.1 + 1, s.1 + 1,
      find_next_prime (if s.2.2 - s.1 > s.2.2 / 2 then s.2.2 else s.2.2 * 2))
  else (s.1 + 1, s.2.1 + 1, s.2.2)

/-- Phases 1 and 2 of the spec's concrete map scenario: starting from new(),
insert (i, i*i) for i < 1000, then remove the keys 0..600. -/
def c5Mid (hash : Nat → Nat) : Option (OpenAddressingMap Nat Nat) :=
  (OpenAddressingMap.insertSeq hash false id OpenAddressingMap.new
      ((List.range 1000).map (fun i => (i, i * i)))).map
    (fun m1 => OpenAddressingMap.removeSeq hash m1 (List.range 600))

/-- Phase 3 of the scenario: insert 1000 further fresh keys 10000 + i. -/
def c5Final (hash : Nat → Nat) : Option (OpenAddressingMap Nat Nat) :=
  (c5Mid hash).bind fun m2 =>
    OpenAddressingMap.insertSeq hash false id m2
      ((List.range 1000).map (fun i => (10000 + i, i * i)))

/-- Bool helper: a Bool that is not true is false. -/
theorem bool_eq_false {b : Bool} (h : ¬ b = true) : b = false := by
  cases b
  · rfl
  · exact absurd rfl h

/-! Basic facts about the bounded upward scan firstFrom. -/

theorem firstFrom_eq_some {p : Nat → Bool} {fuel : Nat} :
    ∀ {start j : Nat}, firstFrom p start fuel = some j ↔
      start ≤ j ∧ j < start + fuel ∧ p j = true ∧
        ∀ t, start ≤ t → t < j → p t = false := by
  induction fuel with
  | zero =>
    intro start j
    simp only [firstFrom]
    constructor
    · intro h; exact Option.noConfusion h
    · rintro ⟨h1, h2, -⟩; omega
  | succ fuel ih =>
    intro start j
    simp only [firstFrom]
    by_cases hp : p start = true
    · rw [if_pos hp]
      constructor
      · intro h
        injection h with h
        subst h
        exact ⟨Nat.le_refl _, by omega, hp, fun t h1 h2 => absurd h1 (by omega)⟩
      · rintro ⟨h1, h2, h3, h4⟩
        rcases Nat.eq_or_lt_of_le h1 with h | h
        · rw [h]
        · exfalso
          have hc := h4 start (Nat.le_refl _) h
          rw [hp] at hc
          exact Bool.noConfusion hc
    · rw [if_neg hp]
      rw [ih]
      constructor
      · rintro ⟨h1, h2, h3, h4⟩
        refine ⟨by omega, by omega, h3, ?_⟩
        intro t ht1 ht2
        rcases Nat.eq_or_lt_of_le ht1 with h | h
        · rw [← h]; exact bool_eq_false hp
        · exact h4 t h ht2
      · rintro ⟨h1, h2, h3, h4⟩
        have hne : start ≠ j := by
          rintro rfl
          rw [h3] at hp
          exact hp rfl
        exact ⟨by omega, by omega, h3, fun t ht1 ht2 => h4 t (by omega) ht2⟩

theorem firstFrom_eq_none {p : Nat → Bool} {fuel : Nat} :
    ∀ {start : Nat}, firstFrom p start fuel = none ↔
      ∀ t, start ≤ t → t < start + fuel → p t = false := by
  induction fuel with
  | zero =>
    intro start
    simp only [firstFrom]
    constructor
    · intro _ t h1 h2; omega
    · intro _; trivial
  | succ fuel ih =>
    intro start
    simp only [firstFrom]
    by_cases hp : p start = true
    · rw [if_pos hp]
      constructor
      · intro h; exact Option.noConfusion h
      · intro h
        have hc := h start (Nat.le_refl _) (by omega)
        rw [hp] at hc
        exact Bool.noConfusion hc
    · rw [if_neg hp]
      rw [ih]
      constructor
      · intro h t h1 h2
        rcases Nat.eq_or_lt_of_le h1 with he | he
        · rw [← he]; exact bool_eq_false hp
        · exact h t he (by omega)
      · intro h t h1 h2
        exact h t (by omega) (by omega)

theorem firstFrom_congr {p q : Nat → Bool} {fuel : Nat} :
    ∀ {start : Nat}, (∀ t, start ≤ t → t < start + fuel → p t = q t) →
      firstFrom p start fuel = firstFrom q start fuel := by
  induction fuel with
  | zero => intro start _; rfl
  | succ fuel ih =>
    intro start h
    simp only [firstFrom]
    rw [h start (Nat.le_refl _) (by omega)]
    by_cases hq : q start = true
    · rw [if_pos hq, if_pos hq]
    · rw [if_neg hq, if_neg hq]
      exact ih fun t h1 h2 => h t (by omega) (by omega)

/-! List lemmas about getD, set and countP. -/

theorem getD_set_self {α : Type} :
    ∀ (l : List α) (i : Nat) (a d : α), i < l.length → (l.set i a).getD i d = a := by
  intro l
  induction l with
  | nil => intro i a d h; simp at h
  | cons b l ih =>
    intro i a d h
    cases i with
    | zero => rfl
    | succ i =>
      simp only [List.set_cons_succ, List.getD_cons_succ]
      exact ih i a d (by simpa using h)

theorem getD_set_ne {α : Type} :
    ∀ (l : List α) (i j : Nat) (a d : α), i ≠ j → (l.set i a).getD j d = l.getD j d := by
  intro l
  induction l with
  | nil => intro i j a d _; rfl
  | cons b l ih =>
    intro i j a d hne
    cases i with
    | zero =>
      cases j with
      | zero => exact absurd rfl hne
      | succ j => rfl
    | succ i =>
      cases j with
      | zero => rfl
      | succ j =>
        simp only [List.set_cons_succ, List.getD_cons_succ]
        exact ih i j a d (by omega)

theorem getD_replicate {α : Type} :
    ∀ (n i : Nat) (x d : α), i < n → (List.replicate n x).getD i d = x := by
  intro n
  induction n with
  | zero => intro i x d h; omega
  | succ n ih =>
    intro i x d h
    cases i with
    | zero => rfl
    | succ i =>
      simp only [List.replicate_succ, List.getD_cons_succ]
      exact ih i x d (by omega)

theorem countP_set {α : Type} (p : α → Bool) :
    ∀ (l : List α) (i : Nat) (a d : α), i < l.length →
      (l.set i a).countP p + (if p (l.getD i d) then 1 else 0) =
        l.countP p + (if p a then 1 else 0) := by
  intro l
  induction l with
  | nil => intro i a d h; simp at h
  | cons b l ih =>
    intro i a d h
    cases i with
    | zero =>
      simp only [List.set_cons_zero, List.getD_cons_zero, List.countP_cons]
      omega
    | succ i =>
      have ihi := ih i a d (by simpa using h)
      simp only [List.set_cons_succ, List.getD_cons_succ, List.countP_cons]
      omega

theorem getD_default_of_le {α : Type} :
    ∀ (l : List α) (i : Nat) (d : α), l.length ≤ i → l.getD i d = d := by
  intro l
  induction l with
  | nil => intro i d _; cases i <;> rfl
  | cons b l ih =>
    intro i d h
    cases i with
    | zero => simp at h
    | succ i =>
      simp only [List.getD_cons_succ]
      exact ih i d (by simpa using h)

theorem countP_pos_of_getD {α : Type} (p : α → Bool) :
    ∀ (l : List α) (i : Nat) (d : α), i < l.length → p (l.getD i d) = true →
      1 ≤ l.countP p := by
  intro l
  induction l with
  | nil => intro i d h; simp at h
  | cons b l ih =>
    intro i d h hp
    cases i with
    | zero =>
      simp only [List.getD_cons_zero] at hp
      simp [List.countP_cons, hp]
    | succ i =>
      simp only [List.getD_cons_succ] at hp
      have := ih i d (by simpa using h) hp
      simp only [List.countP_cons]
      omega

theorem nodup_le_countP {α : Type} (p : α → Bool) (d : α) (hd : p d = false) :
    ∀ (idxs : List Nat) (l : List α), idxs.Nodup →
      (∀ i ∈ idxs, i < l.length ∧ p (l.getD i d) = true) →
      idxs.length ≤ l.countP p := by
  intro idxs
  induction idxs with
  | nil => intro l _ _; simp
  | cons i0 rest ih =>
    intro l hnd hmem
    have hi0 := hmem i0 (List.mem_cons_self _ _)
    have hset := countP_set p l i0 d d hi0.1
    rw [hi0.2, hd] at hset
    simp at hset
    have hrest : rest.length ≤ (l.set i0 d).countP p := by
      apply ih _ (List.Nodup.of_cons hnd)
      intro j hj
      have hji : i0 ≠ j := by
        rintro rfl
        exact (List.nodup_cons.mp hnd).1 hj
      have hmj := hmem j (List.mem_cons_of_mem _ hj)
      refine ⟨by simpa [List.length_set] using hmj.1, ?_⟩
      rw [getD_set_ne l i0 j d d hji]
      exact hmj.2
    simp only [List.length_cons]
    omega

/-! Primality of find_next_prime. -/

theorem isPrimeB_iff {n : Nat} : isPrimeB n = true ↔ Nat.Prime n := by
  unfold isPrimeB
  rw [Bool.and_eq_true, List.all_eq_true]
  constructor
  · rintro ⟨h2b, hall⟩
    have h2 : 2 ≤ n := of_decide_eq_true h2b
    rw [Nat.prime_def_lt]
    refine ⟨h2, fun m hm hdvd => ?_⟩
    by_contra hm1
    have hm0 : m ≠ 0 := by
      rintro rfl
      rw [zero_dvd_iff] at hdvd
      omega
    have hm2 : 2 ≤ m := by omega
    have hmem : m - 2 ∈ List.range (n - 2) := List.mem_range.mpr (by omega)
    have h5 : n % (m - 2 + 2) ≠ 0 := of_decide_eq_true (hall _ hmem)
    rw [Nat.sub_add_cancel hm2] at h5
    exact h5 (Nat.mod_eq_zero_of_dvd hdvd)
  · intro hp
    refine ⟨decide_eq_true hp.two_le, fun d hd => ?_⟩
    rw [List.mem_range] at hd
    refine decide_eq_true ?_
    intro hmod
    have hdvd : (d + 2) ∣ n := Nat.dvd_of_mod_eq_zero hmod
    have := (Nat.prime_def_lt.mp hp).2 (d + 2) (by omega) hdvd
    omega

theorem findPrimeFrom_prime :
    ∀ (fuel n : Nat), (∃ q, n ≤ q ∧ q < n + fuel ∧ Nat.Prime q) →
      Nat.Prime (findPrimeFrom fuel n) ∧ n ≤ findPrimeFrom fuel n ∧
        ∀ r, n ≤ r → r < findPrimeFrom fuel n → ¬ Nat.Prime r := by
  intro fuel
  induction fuel with
  | zero =>
    rintro n ⟨q, h1, h2, -⟩
    omega
  | succ fuel ih =>
    rintro n hex
    simp only [findPrimeFrom]
    by_cases hp : isPrimeB n = true
    · rw [if_pos hp]
      exact ⟨isPrimeB_iff.mp hp, Nat.le_refl _, fun r h1 h2 _ => by omega⟩
    · rw [if_neg hp]
      have hnp : ¬ Nat.Prime n := fun hq => hp (isPrimeB_iff.mpr hq)
      have hex2 : ∃ q, n + 1 ≤ q ∧ q < (n + 1) + fuel ∧ Nat.Prime q := by
        rcases hex with ⟨q, h1, h2, h3⟩
        refine ⟨q, ?_, by omega, h3⟩
        rcases Nat.eq_or_lt_of_le h1 with h | h
        · exact absurd (h ▸ h3) hnp
        · omega
      rcases ih (n + 1) hex2 with ⟨hpr, hle, hmin⟩
      refine ⟨hpr, by omega, fun r h1 h2 => ?_⟩
      rcases Nat.eq_or_lt_of_le h1 with h | h
      · rw [← h]; exact hnp
      · exact hmin r h h2

theorem find_next_prime_spec (n : Nat) :
    Nat.Prime (find_next_prime n) ∧ n ≤ find_next_prime n ∧
      ∀ r, n ≤ r → r < find_next_prime n → ¬ Nat.Prime r := by
  cases n with
  | zero =>
    have h2 : find_next_prime 0 = 2 := rfl
    rw [h2]
    refine ⟨Nat.prime_two, Nat.zero_le _, fun r _ h2 => ?_⟩
    interval_cases r
    · exact Nat.not_prime_zero
    · exact Nat.not_prime_one
  | succ m =>
    apply findPrimeFrom_prime
    rcases Nat.exists_prime_lt_and_le_two_mul (m + 1) (by omega) with ⟨q, hq, h1, h2⟩
    exact ⟨q, by omega, by omega, hq⟩

theorem find_next_prime_prime (n : Nat) : Nat.Prime (find_next_prime n) :=
  (find_next_prime_spec n).1

theorem find_next_prime_ge (n : Nat) : n ≤ find_next_prime n :=
  (find_next_prime_spec n).2.1

theorem find_next_prime_of_prime {n : Nat} (h : Nat.Prime n) : find_next_prime n = n := by
  rcases find_next_prime_spec n with ⟨-, h2, h3⟩
  by_contra hne
  exact h3 n (Nat.le_refl n) (by omega) h

/-! Injectivity of the first half of the quadratic probe sequence over a prime
bucket count. -/

theorem probe_inj {N : Nat} (hp : Nat.Prime N) (h : Nat) :
    ∀ {i j : Nat}, i ≤ N / 2 → j ≤ N / 2 → probeIdx h N i = probeIdx h N j → i = j := by
  intro i j hi hj heq
  have hN2 : 2 ≤ N := hp.two_le
  have hmod : i * i ≡ j * j [MOD N] := Nat.ModEq.add_left_cancel' h heq
  have hdvd : (N : ℤ) ∣ ((j : ℤ) * j - (i : ℤ) * i) := by
    have hd := hmod.dvd
    push_cast at hd
    exact hd
  have hfact : (N : ℤ) ∣ ((j : ℤ) - i) * ((j : ℤ) + i) := by
    have he : ((j : ℤ) - i) * ((j : ℤ) + i) = (j : ℤ) * j - (i : ℤ) * i := by ring
    rw [he]
    exact hdvd
  have hNp : Prime (N : ℤ) := Nat.prime_iff_prime_int.mp hp
  rcases hNp.dvd_mul.mp hfact with hd | hd
  · have hz : (j : ℤ) - i = 0 := by
      apply Int.eq_zero_of_abs_lt_dvd hd
      rw [abs_lt]
      constructor
      · omega
      · omega
    omega
  · have hcast : ((j + i : ℕ) : ℤ) = (j : ℤ) + i := by push_cast; ring
    have hd2 : (N : ℤ) ∣ ((j + i : ℕ) : ℤ) := by rw [hcast]; exact hd
    have hdN : N ∣ (j + i) := Int.natCast_dvd_natCast.mp hd2
    rcases Nat.lt_or_ge (j + i) N with hlt | hge
    · have := Nat.eq_zero_of_dvd_of_lt hdN hlt
      omega
    · omega

/-! Pigeonhole: when at most half the slots are used, the first half of the
probe sequence reaches an unused slot. -/

theorem exists_unused_probe {K V : Type} (l : List (Entry K V)) (h : Nat)
    (hp : Nat.Prime l.length)
    (hc : OpenAddressingMap.countUsed l ≤ l.length / 2) :
    ∃ s, s ≤ l.length / 2 ∧
      (l.getD (probeIdx h l.length s) Entry.default).used = false := by
  by_contra hall
  push_neg at hall
  have hall2 : ∀ s, s ≤ l.length / 2 →
      (l.getD (probeIdx h l.length s) Entry.default).used = true := by
    intro s hs
    have hne := hall s hs
    cases hb : (l.getD (probeIdx h l.length s) Entry.default).used
    · exact absurd hb hne
    · rfl
  have hnd : ((List.range (l.length / 2 + 1)).map (fun s => probeIdx h l.length s)).Nodup := by
    refine List.Nodup.map_on ?_ (List.nodup_range _)
    intro x hx y hy hxy
    have hx2 : x ≤ l.length / 2 := by have := List.mem_range.mp hx; omega
    have hy2 : y ≤ l.length / 2 := by have := List.mem_range.mp hy; omega
    exact probe_inj hp h hx2 hy2 hxy
  have hmem : ∀ i ∈ (List.range (l.length / 2 + 1)).map (fun s => probeIdx h l.length s),
      i < l.length ∧ (fun e => Entry.used e) (l.getD i Entry.default) = true := by
    intro i hi
    rcases List.mem_map.mp hi with ⟨s, hs, rfl⟩
    have hs2 : s ≤ l.length / 2 := by have := List.mem_range.mp hs; omega
    exact ⟨Nat.mod_lt _ (by have := hp.two_le; omega), hall2 s hs2⟩
  have hb := nodup_le_countP (fun e => Entry.used e) Entry.default rfl _ l hnd hmem
  have hlen : ((List.range (l.length / 2 + 1)).map (fun s => probeIdx h l.length s)).length
      = l.length / 2 + 1 := by simp
  have hc2 : l.countP (fun e => Entry.used e) ≤ l.length / 2 := hc
  omega

/-! Entry predicate lemmas. -/

namespace Entry

variable {K V : Type} [DecidableEq K]

theorem free_iff {e : Entry K V} : e.free = true ↔ e.inner = none ∧ e.tombstoned = false := by
  obtain ⟨eh, et, einn⟩ := e
  cases einn <;> cases et <;> simp [Entry.free]

theorem free_eq_not_used (e : Entry K V) : e.free = !e.used := by
  obtain ⟨eh, et, einn⟩ := e
  cases einn <;> cases et <;> rfl

theorem alive_iff {e : Entry K V} : e.alive = true ↔ ∃ kv, e.inner = some kv := by
  obtain ⟨eh, et, einn⟩ := e
  cases einn <;> simp [Entry.alive]

theorem is_this_iff {e : Entry K V} {k : K} :
    e.is_this k = true ↔ ∃ v, e.inner = some (k, v) := by
  obtain ⟨eh, et, einn⟩ := e
  cases einn with
  | none => simp [Entry.is_this]
  | some kv =>
    obtain ⟨k1, v1⟩ := kv
    unfold Entry.is_this
    simp only [Option.some.injEq, Prod.mk.injEq]
    constructor
    · intro h
      have h2 : k1 = k := of_decide_eq_true h
      exact ⟨v1, h2, rfl⟩
    · rintro ⟨v2, h1, h2⟩
      exact decide_eq_true h1

theorem is_this_false_of_free {e : Entry K V} {k : K} (h : e.free = true) :
    e.is_this k = false := by
  rcases free_iff.mp h with ⟨h1, -⟩
  unfold is_this
  rw [h1]

theorem alive_of_is_this {e : Entry K V} {k : K} (h : e.is_this k = true) :
    e.alive = true := by
  rcases is_this_iff.mp h with ⟨v, hv⟩
  unfold alive
  rw [hv]
  rfl

theorem free_false_of_is_this {e : Entry K V} {k : K} (h : e.is_this k = true) :
    e.free = false := by
  rcases is_this_iff.mp h with ⟨v, hv⟩
  unfold free
  rw [hv]
  rfl

theorem is_this_make_used (e : Entry K V) (h : Nat) (k : K) (v : V) (k0 : K) :
    (e.make_used h k v).is_this k0 = decide (k = k0) := rfl

theorem used_default : (Entry.default : Entry K V).used = false := rfl

end Entry

namespace OpenAddressingMap

variable {K V : Type} [DecidableEq K] (hash : K → Nat)

/-- The data-structure invariant every reachable map satisfies: the bucket array
is fully materialized at a prime capacity in free storage, the counters agree
with the actual alive and used entry counts, alive keys are pairwise distinct,
and every alive entry is reached by its key's probe sequence before any free
slot (the spec's probe invariant). -/
structure Inv (m : OpenAddressingMap K V) : Prop where
  len_eq : m.entries.elems.length = capacity m
  cap_prime : Nat.Prime (capacity m)
  mode_free : m.entries.ptr.mode = PtrMode.free
  alive_eq : m.number_alive = countAlive m.entries.elems
  used_eq : m.number_used = countUsed m.entries.elems
  distinct : ∀ i j (k0 : K), i < capacity m → j < capacity m → i ≠ j →
    (entryAt m i).is_this k0 = true → (entryAt m j).is_this k0 = true → False
  before_free : ∀ idx (k0 : K), idx < capacity m → (entryAt m idx).is_this k0 = true →
    ∃ s, s < capacity m ∧ probeIdx (hash k0) (capacity m) s = idx ∧
      ∀ t, t < s → (entryAt m (probeIdx (hash k0) (capacity m) t)).free = false

theorem Inv.cap_pos {m : OpenAddressingMap K V} (hI : Inv hash m) : 0 < capacity m := by
  have := hI.cap_prime.two_le
  omega

theorem entryAt_with_capacity {n idx : Nat} (h : idx < find_next_prime n) :
    entryAt (with_capacity n : OpenAddressingMap K V) idx = Entry.default := by
  unfold entryAt with_capacity
  exact getD_replicate _ _ _ _ h

theorem capacity_with_capacity (n : Nat) :
    capacity (with_capacity n : OpenAddressingMap K V) = find_next_prime n := rfl

theorem Inv_with_capacity (n : Nat) : Inv hash (with_capacity n : OpenAddressingMap K V) := by
  refine ⟨?_, ?_, ?_, ?_, ?_, ?_, ?_⟩
  · simp [with_capacity, capacity]
  · exact find_next_prime_prime n
  · rfl
  · rw [eq_comm]
    apply List.countP_eq_zero.mpr
    intro e he
    rw [List.eq_of_mem_replicate he]
    simp [Entry.alive, Entry.default]
  · rw [eq_comm]
    apply List.countP_eq_zero.mpr
    intro e he
    rw [List.eq_of_mem_replicate he]
    simp [Entry.used, Entry.default]
  · intro i j k0 hi hj hij hthis
    rw [entryAt_with_capacity hi] at hthis
    exact absurd hthis (by simp [Entry.is_this, Entry.default])
  · intro idx k0 hidx hthis
    rw [entryAt_with_capacity hidx] at hthis
    exact absurd hthis (by simp [Entry.is_this, Entry.default])

/-! Facts about setEntry. -/

theorem capacity_setEntry (m : OpenAddressingMap K V) (idx : Nat) (e : Entry K V) :
    capacity (setEntry m idx e) = capacity m := rfl

theorem entries_length_setEntry (m : OpenAddressingMap K V) (idx : Nat) (e : Entry K V) :
    (setEntry m idx e).entries.elems.length = m.entries.elems.length := by
  simp [setEntry]

theorem entryAt_setEntry_self {m : OpenAddressingMap K V} {idx : Nat} (e : Entry K V)
    (h : idx < m.entries.elems.length) : entryAt (setEntry m idx e) idx = e :=
  getD_set_self _ _ _ _ h

theorem entryAt_setEntry_ne {m : OpenAddressingMap K V} {idx j : Nat} (e : Entry K V)
    (h : idx ≠ j) : entryAt (setEntry m idx e) j = entryAt m j :=
  getD_set_ne _ _ _ _ _ h

/-! Characterizations of get under the invariant. -/

theorem get_eq_none_iff {m : OpenAddressingMap K V} (hI : Inv hash m) {k : K} :
    get hash m k = none ↔ ∀ idx, idx < capacity m → (entryAt m idx).is_this k = false := by
  constructor
  · intro hg idx hidx
    cases hthis : (entryAt m idx).is_this k
    · rfl
    · exfalso
      rcases hI.before_free idx k hidx hthis with ⟨s, hscap, hsidx, -⟩
      unfold get find_used_idx at hg
      cases hfs : firstFrom (fun i =>
          (entryAt m (probeIdx (hash k) (capacity m) i)).is_this k) 0 (capacity m) with
      | none =>
        have := firstFrom_eq_none.mp hfs s (Nat.zero_le _) (by omega)
        rw [hsidx] at this
        rw [hthis] at this
        exact Bool.noConfusion this
      | some f =>
        rw [hfs] at hg
        rcases firstFrom_eq_some.mp hfs with ⟨-, -, hfp, -⟩
        rcases Entry.is_this_iff.mp hfp with ⟨v, hv⟩
        have hg2 : Option.map Prod.snd
            (entryAt m (probeIdx (hash k) (capacity m) f)).inner = none := hg
        rw [hv] at hg2
        exact Option.noConfusion hg2
  · intro hall
    unfold get find_used_idx
    have hfs : firstFrom (fun i =>
        (entryAt m (probeIdx (hash k) (capacity m) i)).is_this k) 0 (capacity m) = none := by
      apply firstFrom_eq_none.mpr
      intro t _ht0 _ht
      exact hall _ (Nat.mod_lt _ (hI.cap_pos hash))
    rw [hfs]

theorem get_eq_some_iff {m : OpenAddressingMap K V} (hI : Inv hash m) {k : K} {v : V} :
    get hash m k = some v ↔
      ∃ idx, idx < capacity m ∧ (entryAt m idx).inner = some (k, v) := by
  constructor
  · intro hg
    unfold get find_used_idx at hg
    cases hfs : firstFrom (fun i =>
        (entryAt m (probeIdx (hash k) (capacity m) i)).is_this k) 0 (capacity m) with
    | none => rw [hfs] at hg; exact Option.noConfusion hg
    | some f =>
      rw [hfs] at hg
      rcases firstFrom_eq_some.mp hfs with ⟨-, hflt, hfp, -⟩
      rcases Entry.is_this_iff.mp hfp with ⟨v2, hv2⟩
      have hg2 : Option.map Prod.snd
          (entryAt m (probeIdx (hash k) (capacity m) f)).inner = some v := hg
      rw [hv2] at hg2
      simp only [Option.map_some'] at hg2
      injection hg2 with hg2
      refine ⟨probeIdx (hash k) (capacity m) f, Nat.mod_lt _ (hI.cap_pos hash), ?_⟩
      rw [hv2, hg2]
  · rintro ⟨idx, hidx, hinner⟩
    have hthis : (entryAt m idx).is_this k = true := Entry.is_this_iff.mpr ⟨v, hinner⟩
    rcases hI.before_free idx k hidx hthis with ⟨s, hscap, hsidx, -⟩
    unfold get find_used_idx
    cases hfs : firstFrom (fun i =>
        (entryAt m (probeIdx (hash k) (capacity m) i)).is_this k) 0 (capacity m) with
    | none =>
      exfalso
      have := firstFrom_eq_none.mp hfs s (Nat.zero_le _) (by omega)
      rw [hsidx, hthis] at this
      exact Bool.noConfusion this
    | some f =>
      rcases firstFrom_eq_some.mp hfs with ⟨-, hflt, hfp, -⟩
      have hfcap : probeIdx (hash k) (capacity m) f < capacity m :=
        Nat.mod_lt _ (hI.cap_pos hash)
      have heq : probeIdx (hash k) (capacity m) f = idx := by
        by_contra hne
        exact hI.distinct _ _ k hfcap hidx hne hfp hthis
      show Option.map Prod.snd (entryAt m (probeIdx (hash k) (capacity m) f)).inner = some v
      rw [heq, hinner]
      rfl

/-- When the insert walk stops at a free slot, no alive entry with that key
exists anywhere in the table. -/
theorem no_key_of_stop_free {m : OpenAddressingMap K V} (hI : Inv hash m) {k : K} {s : Nat}
    (hs : insert_stop hash m k = some s)
    (hfree : (entryAt m (probeIdx (hash k) (capacity m) s)).free = true) :
    ∀ idx, idx < capacity m → (entryAt m idx).is_this k = false := by
  intro idx hidx
  cases hthis : (entryAt m idx).is_this k
  · rfl
  · exfalso
    rcases hI.before_free idx k hidx hthis with ⟨s2, hs2cap, hs2idx, hs2nf⟩
    rcases firstFrom_eq_some.mp hs with ⟨-, hslt, hsp, hsmin⟩
    rcases Nat.lt_trichotomy s2 s with h | h | h
    · have hmin := hsmin s2 (Nat.zero_le _) h
      rw [Bool.or_eq_false_iff] at hmin
      rw [hs2idx] at hmin
      rw [hthis] at hmin
      exact Bool.noConfusion hmin.2
    · rw [← h, hs2idx] at hfree
      rw [Entry.is_this_false_of_free hfree] at hthis
      exact Bool.noConfusion hthis
    · have := hs2nf s h
      rw [hfree] at this
      exact Bool.noConfusion this

end OpenAddressingMap

namespace Entry

theorem used_false_of_free {K V : Type} [DecidableEq K] {e : Entry K V} (h : e.free = true) :
    e.used = false := by
  rw [free_eq_not_used] at h
  cases hu : e.used
  · rfl
  · rw [hu] at h
    exact Bool.noConfusion h

end Entry

theorem countP_set_same {α : Type} (p : α → Bool) {l : List α} {i : Nat} (a d : α)
    (h : i < l.length) (hsame : p (l.getD i d) = p a) :
    (l.set i a).countP p = l.countP p := by
  have hset := countP_set p l i a d h
  rw [hsame] at hset
  omega

theorem countP_set_incr {α : Type} (p : α → Bool) {l : List α} {i : Nat} (a d : α)
    (h : i < l.length) (hold : p (l.getD i d) = false) (hnew : p a = true) :
    (l.set i a).countP p = l.countP p + 1 := by
  have hset := countP_set p l i a d h
  rw [hold, hnew] at hset
  simp at hset
  omega

theorem countP_set_decr {α : Type} (p : α → Bool) {l : List α} {i : Nat} (a d : α)
    (h : i < l.length) (hold : p (l.getD i d) = true) (hnew : p a = false) :
    l.countP p = (l.set i a).countP p + 1 := by
  have hset := countP_set p l i a d h
  rw [hold, hnew] at hset
  simp at hset
  omega

namespace OpenAddressingMap

variable {K V : Type} [DecidableEq K] (hash : K → Nat)

/-- Full functional specification of insert_inner on an invariant-respecting map
whose used count is at most half the capacity: the probe walk succeeds, the
prior value is returned, the invariant is preserved, the key is bound to the
new value, every other key is untouched, and both counters are bumped exactly
when the key was fresh. -/
theorem insert_inner_spec {m : OpenAddressingMap K V} (hI : Inv hash m) (k : K) (v : V)
    (hload : m.number_used ≤ capacity m / 2) :
    ∃ m1, insert_inner hash m k v = some (get hash m k, m1) ∧ Inv hash m1 ∧
      capacity m1 = capacity m ∧ m1.entries.ptr = m.entries.ptr ∧
      get hash m1 k = some v ∧
      (∀ k2, k2 ≠ k → get hash m1 k2 = get hash m k2) ∧
      m1.number_alive = m.number_alive + (if (get hash m k).isSome then 0 else 1) ∧
      m1.number_used = m.number_used + (if (get hash m k).isSome then 0 else 1) := by
  have hlen : m.entries.elems.length = capacity m := hI.len_eq
  have hcap2 : 2 ≤ capacity m := hI.cap_prime.two_le
  have hcpos : 0 < capacity m := by omega
  obtain ⟨s0, hs0le, hs0used⟩ := exists_unused_probe m.entries.elems (hash k)
      (by rw [hlen]; exact hI.cap_prime)
      (by rw [hlen]; have := hI.used_eq; omega)
  rw [hlen] at hs0le hs0used
  have hs0free : (entryAt m (probeIdx (hash k) (capacity m) s0)).free = true := by
    have hu : (entryAt m (probeIdx (hash k) (capacity m) s0)).used = false := hs0used
    rw [Entry.free_eq_not_used, hu]
    rfl
  obtain ⟨s, hs⟩ : ∃ s, insert_stop hash m k = some s := by
    cases hfs : insert_stop hash m k with
    | none =>
      exfalso
      have hn := firstFrom_eq_none.mp hfs s0 (Nat.zero_le _) (by omega)
      rw [Bool.or_eq_false_iff] at hn
      rw [hn.1] at hs0free
      exact Bool.noConfusion hs0free
    | some s => exact ⟨s, rfl⟩
  rcases firstFrom_eq_some.mp hs with ⟨-, hslt, hsp, hsmin⟩
  rw [Nat.zero_add] at hslt
  have hidxcap : probeIdx (hash k) (capacity m) s < capacity m := Nat.mod_lt _ hcpos
  have hidxlen : probeIdx (hash k) (capacity m) s < m.entries.elems.length := by omega
  have hminfacts : ∀ t, t < s →
      (entryAt m (probeIdx (hash k) (capacity m) t)).free = false ∧
      (entryAt m (probeIdx (hash k) (capacity m) t)).is_this k = false := by
    intro t ht
    have hmt := hsmin t (Nat.zero_le _) ht
    rw [Bool.or_eq_false_iff] at hmt
    exact hmt
  by_cases hfree : (entryAt m (probeIdx (hash k) (capacity m) s)).free = true
  · -- placement at a free slot
    have hnokey := no_key_of_stop_free hash hI hs hfree
    have hget : get hash m k = none := (get_eq_none_iff hash hI).mpr hnokey
    rcases hE : entryAt m (probeIdx (hash k) (capacity m) s) with ⟨eh, et, einn⟩
    rw [hE] at hfree
    have hinn : einn = none := (Entry.free_iff.mp hfree).1
    have htomb : et = false := (Entry.free_iff.mp hfree).2
    subst hinn
    subst htomb
    set idx := probeIdx (hash k) (capacity m) s with hidxdef
    set M1 : OpenAddressingMap K V :=
      ⟨m.number_alive + 1, m.number_used + 1,
        ⟨m.entries.ptr, m.entries.elems.set idx ⟨hash k, false, some (k, v)⟩,
          m.entries.cap⟩⟩ with hM1def
    have h1 : insert_inner_inner hash m k v
        = some (none, setEntry m idx (⟨hash k, false, some (k, v)⟩ : Entry K V)) := by
      unfold insert_inner_inner
      rw [hs]
      show (if (entryAt m idx).free = true
            then some (none, setEntry m idx ((entryAt m idx).make_used (hash k) k v))
            else some (((entryAt m idx).replace_value v).1,
              setEntry m idx ((entryAt m idx).replace_value v).2)) = _
      rw [hE]
      rfl
    have h2 : insert_inner hash m k v = some (none, M1) := by
      unfold insert_inner
      rw [h1]
      rfl
    have hM1cap : capacity M1 = capacity m := by rw [hM1def]; rfl
    have hself : entryAt M1 idx = (⟨hash k, false, some (k, v)⟩ : Entry K V) := by
      rw [hM1def]
      exact getD_set_self _ _ _ _ hidxlen
    have hne : ∀ j, j ≠ idx → entryAt M1 j = entryAt m j := by
      intro j hj
      rw [hM1def]
      exact getD_set_ne _ _ _ _ _ (Ne.symm hj)
    have hgd : m.entries.elems.getD idx Entry.default
        = (⟨eh, false, none⟩ : Entry K V) := hE
    have hInvM1 : Inv hash M1 := by
      refine ⟨?_, ?_, ?_, ?_, ?_, ?_, ?_⟩
      · rw [hM1def]
        show (m.entries.elems.set idx _).length = _
        rw [List.length_set]
        exact hlen
      · rw [hM1cap]
        exact hI.cap_prime
      · rw [hM1def]
        exact hI.mode_free
      · rw [hM1def]
        show m.number_alive + 1 = countAlive (m.entries.elems.set idx _)
        unfold countAlive
        rw [countP_set_incr _ _ Entry.default hidxlen (by rw [hgd]; rfl) rfl]
        have := hI.alive_eq
        unfold countAlive at this
        omega
      · rw [hM1def]
        show m.number_used + 1 = countUsed (m.entries.elems.set idx _)
        unfold countUsed
        rw [countP_set_incr _ _ Entry.default hidxlen (by rw [hgd]; rfl) rfl]
        have := hI.used_eq
        unfold countUsed at this
        omega
      · intro i j k0 hi hj hij hti htj
        rw [hM1cap] at hi hj
        by_cases hii : i = idx
        · subst hii
          rw [hself] at hti
          have hk0 : k = k0 := of_decide_eq_true hti
          subst hk0
          rw [hne j (Ne.symm hij)] at htj
          rw [hnokey j hj] at htj
          exact Bool.noConfusion htj
        · by_cases hjj : j = idx
          · subst hjj
            rw [hself] at htj
            have hk0 : k = k0 := of_decide_eq_true htj
            subst hk0
            rw [hne i hii] at hti
            rw [hnokey i hi] at hti
            exact Bool.noConfusion hti
          · rw [hne i hii] at hti
            rw [hne j hjj] at htj
            exact hI.distinct i j k0 hi hj hij hti htj
      · intro idx2 k0 h2 ht2
        rw [hM1cap] at h2
        simp only [hM1cap]
        by_cases h2i : idx2 = idx
        · subst h2i
          rw [hself] at ht2
          have hk0 : k = k0 := of_decide_eq_true ht2
          subst hk0
          refine ⟨s, by omega, hidxdef.symm, ?_⟩
          intro t ht
          have hptne : probeIdx (hash k) (capacity m) t ≠ idx := by
            intro heqp
            have hmf := (hminfacts t ht).1
            rw [heqp, hE] at hmf
            exact Bool.noConfusion hmf
          rw [hne _ hptne]
          exact (hminfacts t ht).1
        · rw [hne _ h2i] at ht2
          rcases hI.before_free idx2 k0 h2 ht2 with ⟨s2, hs2cap, hs2idx, hs2nf⟩
          refine ⟨s2, hs2cap, hs2idx, ?_⟩
          intro t ht
          by_cases hpt : probeIdx (hash k0) (capacity m) t = idx
          · rw [hpt, hself]
            rfl
          · rw [hne _ hpt]
            exact hs2nf t ht
    have hg4 : get hash M1 k = some v := by
      apply (get_eq_some_iff hash hInvM1).mpr
      refine ⟨idx, ?_, ?_⟩
      · rw [hM1cap]
        exact hidxcap
      · rw [hself]
    have hg5 : ∀ k2, k2 ≠ k → get hash M1 k2 = get hash m k2 := by
      intro k2 hk2
      cases hg2 : get hash m k2 with
      | none =>
        apply (get_eq_none_iff hash hInvM1).mpr
        intro j hj
        rw [hM1cap] at hj
        by_cases hji : j = idx
        · subst hji
          rw [hself]
          show decide (k = k2) = false
          exact decide_eq_false (fun hc => hk2 hc.symm)
        · rw [hne _ hji]
          exact (get_eq_none_iff hash hI).mp hg2 j hj
      | some v2 =>
        rcases (get_eq_some_iff hash hI).mp hg2 with ⟨j, hj, hjinner⟩
        have hji : j ≠ idx := by
          intro hc
          rw [hc, hE] at hjinner
          exact Option.noConfusion hjinner
        apply (get_eq_some_iff hash hInvM1).mpr
        refine ⟨j, ?_, ?_⟩
        · rw [hM1cap]
          exact hj
        · rw [hne _ hji]
          exact hjinner
    refine ⟨M1, by rw [h2, hget], hInvM1, hM1cap, by rw [hM1def], hg4, hg5, ?_, ?_⟩
    · rw [hget, hM1def]
      rfl
    · rw [hget, hM1def]
      rfl
  · -- overwrite of the matching alive entry
    have hthis : (entryAt m (probeIdx (hash k) (capacity m) s)).is_this k = true := by
      rw [Bool.or_eq_true] at hsp
      rcases hsp with h | h
      · exact absurd h hfree
      · exact h
    rcases hE : entryAt m (probeIdx (hash k) (capacity m) s) with ⟨eh, et, einn⟩
    rw [hE] at hthis
    rcases Entry.is_this_iff.mp hthis with ⟨vold, hvold⟩
    have hinn : einn = some (k, vold) := hvold
    subst hinn
    set idx := probeIdx (hash k) (capacity m) s with hidxdef
    set M1 : OpenAddressingMap K V :=
      ⟨m.number_alive, m.number_used,
        ⟨m.entries.ptr, m.entries.elems.set idx ⟨eh, et, some (k, v)⟩,
          m.entries.cap⟩⟩ with hM1def
    have hgetB : get hash m k = some vold := by
      apply (get_eq_some_iff hash hI).mpr
      exact ⟨idx, hidxcap, by rw [hE]⟩
    have h1 : insert_inner_inner hash m k v
        = some (some vold, setEntry m idx (⟨eh, et, some (k, v)⟩ : Entry K V)) := by
      unfold insert_inner_inner
      rw [hs]
      show (if (entryAt m idx).free = true
            then some (none, setEntry m idx ((entryAt m idx).make_used (hash k) k v))
            else some (((entryAt m idx).replace_value v).1,
              setEntry m idx ((entryAt m idx).replace_value v).2)) = _
      rw [hE]
      rfl
    have h2 : insert_inner hash m k v = some (some vold, M1) := by
      unfold insert_inner
      rw [h1]
      rfl
    have hM1cap : capacity M1 = capacity m := by rw [hM1def]; rfl
    have hself : entryAt M1 idx = (⟨eh, et, some (k, v)⟩ : Entry K V) := by
      rw [hM1def]
      exact getD_set_self _ _ _ _ hidxlen
    have hne : ∀ j, j ≠ idx → entryAt M1 j = entryAt m j := by
      intro j hj
      rw [hM1def]
      exact getD_set_ne _ _ _ _ _ (Ne.symm hj)
    have hgd : m.entries.elems.getD idx Entry.default
        = (⟨eh, et, some (k, vold)⟩ : Entry K V) := hE
    have hconv : ∀ k0 jj, jj < capacity m → (entryAt M1 jj).is_this k0 = true →
        (entryAt m jj).is_this k0 = true := by
      intro k0 jj hjj htt
      by_cases hji : jj = idx
      · subst hji
        rw [hself] at htt
        rw [hE]
        exact htt
      · rw [hne _ hji] at htt
        exact htt
    have hInvM1 : Inv hash M1 := by
      refine ⟨?_, ?_, ?_, ?_, ?_, ?_, ?_⟩
      · rw [hM1def]
        show (m.entries.elems.set idx _).length = _
        rw [List.length_set]
        exact hlen
      · rw [hM1cap]
        exact hI.cap_prime
      · rw [hM1def]
        exact hI.mode_free
      · rw [hM1def]
        show m.number_alive = countAlive (m.entries.elems.set idx _)
        unfold countAlive
        rw [countP_set_same _ _ Entry.default hidxlen (by rw [hgd]; rfl)]
        exact hI.alive_eq
      · rw [hM1def]
        show m.number_used = countUsed (m.entries.elems.set idx _)
        unfold countUsed
        rw [countP_set_same _ _ Entry.default hidxlen (by rw [hgd]; rfl)]
        exact hI.used_eq
      · intro i j k0 hi hj hij hti htj
        rw [hM1cap] at hi hj
        exact hI.distinct i j k0 hi hj hij (hconv k0 i hi hti) (hconv k0 j hj htj)
      · intro idx2 k0 h2 ht2
        rw [hM1cap] at h2
        simp only [hM1cap]
        have ht2m := hconv k0 idx2 h2 ht2
        rcases hI.before_free idx2 k0 h2 ht2m with ⟨s2, hs2cap, hs2idx, hs2nf⟩
        refine ⟨s2, hs2cap, hs2idx, ?_⟩
        intro t ht
        by_cases hpt : probeIdx (hash k0) (capacity m) t = idx
        · rw [hpt, hself]
          rfl
        · rw [hne _ hpt]
          exact hs2nf t ht
    have hg4 : get hash M1 k = some v := by
      apply (get_eq_some_iff hash hInvM1).mpr
      refine ⟨idx, ?_, ?_⟩
      · rw [hM1cap]
        exact hidxcap
      · rw [hself]
    have hg5 : ∀ k2, k2 ≠ k → get hash M1 k2 = get hash m k2 := by
      intro k2 hk2
      cases hg2 : get hash m k2 with
      | none =>
        apply (get_eq_none_iff hash hInvM1).mpr
        intro j hj
        rw [hM1cap] at hj
        by_cases hji : j = idx
        · subst hji
          rw [hself]
          have hm2 := (get_eq_none_iff hash hI).mp hg2 idx hidxcap
          rw [hE] at hm2
          exact hm2
        · rw [hne _ hji]
          exact (get_eq_none_iff hash hI).mp hg2 j hj
      | some v2 =>
        rcases (get_eq_some_iff hash hI).mp hg2 with ⟨j, hj, hjinner⟩
        have hji : j ≠ idx := by
          intro hc
          rw [hc, hE] at hjinner
          simp only [Option.some.injEq, Prod.mk.injEq] at hjinner
          exact hk2 (hjinner.1.symm)
        apply (get_eq_some_iff hash hInvM1).mpr
        refine ⟨j, ?_, ?_⟩
        · rw [hM1cap]
          exact hj
        · rw [hne _ hji]
          exact hjinner
    refine ⟨M1, by rw [h2, hgetB], hInvM1, hM1cap, by rw [hM1def], hg4, hg5, ?_, ?_⟩
    · rw [hgetB, hM1def]
      rfl
    · rw [hgetB, hM1def]
      rfl

end OpenAddressingMap

namespace OpenAddressingMap

variable {K V : Type} [DecidableEq K] (hash : K → Nat)

/-- Full functional specification of remove on an invariant-respecting map:
the prior value is returned, the invariant is preserved, the key becomes
absent, every other key is untouched, number_used never changes, and
number_alive drops exactly on a hit. -/
theorem remove_spec {m : OpenAddressingMap K V} (hI : Inv hash m) (k : K) :
    ∃ m1, remove hash m k = (get hash m k, m1) ∧ Inv hash m1 ∧
      capacity m1 = capacity m ∧ m1.entries.ptr = m.entries.ptr ∧
      get hash m1 k = none ∧
      (∀ k2, k2 ≠ k → get hash m1 k2 = get hash m k2) ∧
      m1.number_used = m.number_used ∧
      m.number_alive = m1.number_alive + (if (get hash m k).isSome then 1 else 0) := by
  have hlen : m.entries.elems.length = capacity m := hI.len_eq
  have hcpos : 0 < capacity m := hI.cap_pos hash
  cases hf : firstFrom (fun i =>
      (entryAt m (probeIdx (hash k) (capacity m) i)).is_this k) 0 (capacity m) with
  | none =>
    have hget : get hash m k = none := by
      unfold get find_used_idx
      rw [hf]
    have h2 : remove hash m k = (none, m) := by
      unfold remove remove_inner_inner
      rw [hf]
    refine ⟨m, ?_, hI, rfl, rfl, hget, fun k2 _ => rfl, rfl, ?_⟩
    · rw [h2, hget]
    · rw [hget]
      rfl
  | some f =>
    rcases firstFrom_eq_some.mp hf with ⟨-, hflt, hfp, hfmin⟩
    rw [Nat.zero_add] at hflt
    have hidxcap : probeIdx (hash k) (capacity m) f < capacity m := Nat.mod_lt _ hcpos
    have hidxlen : probeIdx (hash k) (capacity m) f < m.entries.elems.length := by omega
    rcases hE : entryAt m (probeIdx (hash k) (capacity m) f) with ⟨eh, et, einn⟩
    rw [hE] at hfp
    rcases Entry.is_this_iff.mp hfp with ⟨vold, hvold⟩
    have hinn : einn = some (k, vold) := hvold
    subst hinn
    set idx := probeIdx (hash k) (capacity m) f with hidxdef
    set M1 : OpenAddressingMap K V :=
      ⟨m.number_alive - 1, m.number_used,
        ⟨m.entries.ptr, m.entries.elems.set idx ⟨eh, true, none⟩,
          m.entries.cap⟩⟩ with hM1def
    have hgetR : get hash m k = some vold := by
      apply (get_eq_some_iff hash hI).mpr
      exact ⟨idx, hidxcap, by rw [hE]⟩
    have hthisIdx : (entryAt m idx).is_this k = true := by
      rw [hE]
      exact decide_eq_true rfl
    have h1 : remove_inner_inner hash m k = (some vold, setEntry m idx ⟨eh, true, none⟩) := by
      unfold remove_inner_inner
      rw [hf]
      show (((entryAt m idx).remove).1, setEntry m idx ((entryAt m idx).remove).2) = _
      rw [hE]
      rfl
    have h2 : remove hash m k = (some vold, M1) := by
      unfold remove
      rw [h1]
      rfl
    have hM1cap : capacity M1 = capacity m := by rw [hM1def]; rfl
    have hself : entryAt M1 idx = (⟨eh, true, none⟩ : Entry K V) := by
      rw [hM1def]
      exact getD_set_self _ _ _ _ hidxlen
    have hne : ∀ j, j ≠ idx → entryAt M1 j = entryAt m j := by
      intro j hj
      rw [hM1def]
      exact getD_set_ne _ _ _ _ _ (Ne.symm hj)
    have hgd : m.entries.elems.getD idx Entry.default
        = (⟨eh, et, some (k, vold)⟩ : Entry K V) := hE
    have halive1 : 1 ≤ m.number_alive := by
      have hpos := countP_pos_of_getD (fun e => Entry.alive e) m.entries.elems idx
        Entry.default hidxlen (by rw [hgd]; rfl)
      have := hI.alive_eq
      unfold countAlive at this
      omega
    have hconv : ∀ k0 jj, jj < capacity m → (entryAt M1 jj).is_this k0 = true →
        (entryAt m jj).is_this k0 = true := by
      intro k0 jj hjj htt
      by_cases hji : jj = idx
      · subst hji
        rw [hself] at htt
        exact Bool.noConfusion htt
      · rw [hne _ hji] at htt
        exact htt
    have hInvM1 : Inv hash M1 := by
      refine ⟨?_, ?_, ?_, ?_, ?_, ?_, ?_⟩
      · rw [hM1def]
        show (m.entries.elems.set idx _).length = _
        rw [List.length_set]
        exact hlen
      · rw [hM1cap]
        exact hI.cap_prime
      · rw [hM1def]
        exact hI.mode_free
      · rw [hM1def]
        show m.number_alive - 1 = countAlive (m.entries.elems.set idx _)
        unfold countAlive
        have hdec := countP_set_decr (fun e => Entry.alive e) (⟨eh, true, none⟩ : Entry K V)
          Entry.default hidxlen (by rw [hgd]; rfl) rfl
        have := hI.alive_eq
        unfold countAlive at this
        omega
      · rw [hM1def]
        show m.number_used = countUsed (m.entries.elems.set idx _)
        unfold countUsed
        rw [countP_set_same _ _ Entry.default hidxlen (by rw [hgd]; simp [Entry.used])]
        exact hI.used_eq
      · intro i j k0 hi hj hij hti htj
        rw [hM1cap] at hi hj
        exact hI.distinct i j k0 hi hj hij (hconv k0 i hi hti) (hconv k0 j hj htj)
      · intro idx2 k0 h2b ht2
        rw [hM1cap] at h2b
        simp only [hM1cap]
        have ht2m := hconv k0 idx2 h2b ht2
        rcases hI.before_free idx2 k0 h2b ht2m with ⟨s2, hs2cap, hs2idx, hs2nf⟩
        refine ⟨s2, hs2cap, hs2idx, ?_⟩
        intro t ht
        by_cases hpt : probeIdx (hash k0) (capacity m) t = idx
        · rw [hpt, hself]
          rfl
        · rw [hne _ hpt]
          exact hs2nf t ht
    have hg4 : get hash M1 k = none := by
      apply (get_eq_none_iff hash hInvM1).mpr
      intro j hj
      rw [hM1cap] at hj
      by_cases hji : j = idx
      · subst hji
        rw [hself]
        rfl
      · rw [hne _ hji]
        cases htj : (entryAt m j).is_this k
        · rfl
        · exfalso
          exact hI.distinct j idx k hj hidxcap hji htj hthisIdx
    have hg5 : ∀ k2, k2 ≠ k → get hash M1 k2 = get hash m k2 := by
      intro k2 hk2
      cases hg2 : get hash m k2 with
      | none =>
        apply (get_eq_none_iff hash hInvM1).mpr
        intro j hj
        rw [hM1cap] at hj
        by_cases hji : j = idx
        · subst hji
          rw [hself]
          rfl
        · rw [hne _ hji]
          exact (get_eq_none_iff hash hI).mp hg2 j hj
      | some v2 =>
        rcases (get_eq_some_iff hash hI).mp hg2 with ⟨j, hj, hjinner⟩
        have hji : j ≠ idx := by
          intro hc
          rw [hc, hE] at hjinner
          simp only [Option.some.injEq, Prod.mk.injEq] at hjinner
          exact hk2 (hjinner.1.symm)
        apply (get_eq_some_iff hash hInvM1).mpr
        refine ⟨j, ?_, ?_⟩
        · rw [hM1cap]
          exact hj
        · rw [hne _ hji]
          exact hjinner
    refine ⟨M1, by rw [h2, hgetR], hInvM1, hM1cap, by rw [hM1def], hg4, hg5, by rw [hM1def], ?_⟩
    rw [hgetR, hM1def]
    show m.number_alive = m.number_alive - 1 + 1
    omega

end OpenAddressingMap

theorem getD_eq_getElem {α : Type} :
    ∀ (l : List α) (i : Nat) (d : α) (h : i < l.length), l.getD i d = l[i] := by
  intro l
  induction l with
  | nil => intro i d h; simp at h
  | cons b l ih =>
    intro i d h
    cases i with
    | zero => rfl
    | succ i =>
      simp only [List.getD_cons_succ, List.getElem_cons_succ]
      exact ih i d (by simpa using h)

theorem exists_getD_of_mem {α : Type} (d : α) :
    ∀ (l : List α) (a : α), a ∈ l → ∃ i, i < l.length ∧ l.getD i d = a := by
  intro l
  induction l with
  | nil => intro a h; simp at h
  | cons b l ih =>
    intro a h
    rcases List.mem_cons.mp h with h | h
    · exact ⟨0, by simp, h.symm⟩
    · rcases ih a h with ⟨i, h1, h2⟩
      exact ⟨i + 1, by simpa using h1, by simpa using h2⟩

namespace OpenAddressingMap

variable {K V : Type} [DecidableEq K] (hash : K → Nat)

theorem lookupPairs_nil (k : K) : lookupPairs ([] : List (K × V)) k = none := rfl

theorem lookupPairs_cons (k0 : K) (v0 : V) (ps : List (K × V)) (k2 : K) :
    lookupPairs ((k0, v0) :: ps) k2 = if k0 = k2 then some v0 else lookupPairs ps k2 := by
  by_cases h : k0 = k2
  · rw [if_pos h]
    unfold lookupPairs
    have hf : List.find? (fun kv => decide (kv.1 = k2)) ((k0, v0) :: ps) = some (k0, v0) :=
      List.find?_cons_of_pos _ (by simpa using h)
    rw [hf]
    rfl
  · rw [if_neg h]
    unfold lookupPairs
    have hf : List.find? (fun kv => decide (kv.1 = k2)) ((k0, v0) :: ps)
        = List.find? (fun kv => decide (kv.1 = k2)) ps :=
      List.find?_cons_of_neg _ (by simpa using h)
    rw [hf]

theorem lookupPairs_eq_none {ps : List (K × V)} {k2 : K}
    (h : ∀ kv ∈ ps, kv.1 ≠ k2) : lookupPairs ps k2 = none := by
  unfold lookupPairs
  rw [List.find?_eq_none.mpr (fun kv hkv => by simpa using h kv hkv)]
  rfl

/-- Pairwise distinctness of alive keys, position-based, gives nodup key lists. -/
theorem nodup_keys_of_pairwise :
    ∀ (l : List (Entry K V)),
      (∀ i j (k0 : K), i < l.length → j < l.length → i ≠ j →
        (l.getD i Entry.default).is_this k0 = true →
        (l.getD j Entry.default).is_this k0 = true → False) →
      ((l.filterMap Entry.inner).map Prod.fst).Nodup := by
  intro l
  induction l with
  | nil => intro _; simp
  | cons e l ih =>
    intro h
    have hshift : ∀ i j (k0 : K), i < l.length → j < l.length → i ≠ j →
        (l.getD i Entry.default).is_this k0 = true →
        (l.getD j Entry.default).is_this k0 = true → False := by
      intro i j k0 hi hj hij h1 h2
      exact h (i + 1) (j + 1) k0 (by simpa using hi) (by simpa using hj)
        (by omega) (by simpa using h1) (by simpa using h2)
    cases he : e.inner with
    | none =>
      simp only [List.filterMap_cons, he]
      exact ih hshift
    | some kv =>
      obtain ⟨k0, v0⟩ := kv
      simp only [List.filterMap_cons, he, List.map_cons]
      rw [List.nodup_cons]
      constructor
      · intro hmem
        rcases List.mem_map.mp hmem with ⟨kv2, hkv2, hfst⟩
        rcases List.mem_filterMap.mp hkv2 with ⟨e2, he2, hinner2⟩
        rcases exists_getD_of_mem Entry.default l e2 he2 with ⟨j, hj, hgd⟩
        apply h 0 (j + 1) k0 (by simp) (by simpa using hj) (by omega)
        · show e.is_this k0 = true
          apply Entry.is_this_iff.mpr
          exact ⟨v0, he⟩
        · show (l.getD j Entry.default).is_this k0 = true
          rw [hgd]
          apply Entry.is_this_iff.mpr
          refine ⟨kv2.2, ?_⟩
          rw [hinner2, ← hfst]
      · exact ih hshift

theorem keys_nodup_of_Inv {m : OpenAddressingMap K V} (hI : Inv hash m) :
    ((m.entries.elems.filterMap Entry.inner).map Prod.fst).Nodup := by
  apply nodup_keys_of_pairwise
  intro i j k0 hi hj hij h1 h2
  have hlen := hI.len_eq
  exact hI.distinct i j k0 (by omega) (by omega) hij h1 h2

/-- On an invariant-respecting map, get agrees with association-list lookup over
the alive pairs in bucket order. -/
theorem get_eq_lookupPairs {m : OpenAddressingMap K V} (hI : Inv hash m) (k2 : K) :
    get hash m k2 = lookupPairs (m.entries.elems.filterMap Entry.inner) k2 := by
  cases hg : get hash m k2 with
  | none =>
    rw [eq_comm]
    apply lookupPairs_eq_none
    intro kv hkv hk
    rcases List.mem_filterMap.mp hkv with ⟨e2, he2, hinner2⟩
    rcases exists_getD_of_mem Entry.default _ e2 he2 with ⟨j, hj, hgd⟩
    have hthis : (entryAt m j).is_this k2 = true := by
      show (m.entries.elems.getD j Entry.default).is_this k2 = true
      rw [hgd]
      apply Entry.is_this_iff.mpr
      refine ⟨kv.2, ?_⟩
      rw [hinner2, ← hk]
    have hnone := (get_eq_none_iff hash hI).mp hg j (by have := hI.len_eq; omega)
    rw [hnone] at hthis
    exact Bool.noConfusion hthis
  | some v =>
    rcases (get_eq_some_iff hash hI).mp hg with ⟨idx, hidx, hinner⟩
    cases hfind : (m.entries.elems.filterMap Entry.inner).find?
        (fun kv => decide (kv.1 = k2)) with
    | none =>
      exfalso
      have hmem : (k2, v) ∈ m.entries.elems.filterMap Entry.inner := by
        apply List.mem_filterMap.mpr
        refine ⟨entryAt m idx, ?_, hinner⟩
        show m.entries.elems.getD idx Entry.default ∈ m.entries.elems
        rw [getD_eq_getElem _ _ _ (by have := hI.len_eq; omega)]
        exact List.getElem_mem _
      have := List.find?_eq_none.mp hfind _ hmem
      simp at this
    | some kv2 =>
      have hp := List.find?_some hfind
      have hk2 : kv2.1 = k2 := of_decide_eq_true hp
      have hmem2 := List.mem_of_find?_eq_some hfind
      rcases List.mem_filterMap.mp hmem2 with ⟨e2, he2, hinner2⟩
      rcases exists_getD_of_mem Entry.default _ e2 he2 with ⟨j, hj, hgd⟩
      have hlen := hI.len_eq
      have hthis2 : (entryAt m j).is_this k2 = true := by
        show (m.entries.elems.getD j Entry.default).is_this k2 = true
        rw [hgd]
        apply Entry.is_this_iff.mpr
        refine ⟨kv2.2, ?_⟩
        rw [hinner2, ← hk2]
      have hthis1 : (entryAt m idx).is_this k2 = true :=
        Entry.is_this_iff.mpr ⟨v, hinner⟩
      have hji : j = idx := by
        by_contra hne
        exact hI.distinct j idx k2 (by omega) hidx hne hthis2 hthis1
      have he2eq : e2 = entryAt m idx := by
        rw [← hji]
        show e2 = m.entries.elems.getD j Entry.default
        rw [hgd]
      rw [he2eq, hinner] at hinner2
      unfold lookupPairs
      rw [hfind]
      injection hinner2 with h3
      rw [← h3]
      rfl

end OpenAddressingMap

namespace OpenAddressingMap

variable {K V : Type} [DecidableEq K] (hash : K → Nat) (needsDropV : Bool) (dV : V → V)

theorem insertGo_succ (fuel : Nat) (m : OpenAddressingMap K V) (k : K) (v : V) :
    insertGo hash needsDropV dV (fuel + 1) m k v
      = (ensure_capacityGo hash needsDropV dV fuel m).bind
          (fun m1 => insert_inner hash m1 k v) := by
  unfold insertGo ensure_capacityGo
  rfl

theorem ensure_capacityGo_not_trigger {fuel : Nat} {m : OpenAddressingMap K V}
    (h : ¬ m.number_used > capacity m / 2) :
    ensure_capacityGo hash needsDropV dV fuel m = some m := by
  unfold ensure_capacityGo
  rw [if_neg h]

theorem drainList_of_free {m : OpenAddressingMap K V}
    (hmode : m.entries.ptr.mode = PtrMode.free) :
    drainList needsDropV dV m = m.entries.elems := by
  unfold drainList CompactVec.decompact
  have hic : m.entries.ptr.is_compact = false := by
    unfold PointerToMaybeCompact.is_compact
    rw [hmode]
  rw [hic]
  rw [if_neg Bool.false_ne_true]

theorem get_with_capacity_none (n : Nat) (k : K) :
    get hash (with_capacity n : OpenAddressingMap K V) k = none := by
  have hpos : 0 < find_next_prime n := by
    have := (find_next_prime_prime n).two_le
    omega
  unfold get find_used_idx
  have hfs : firstFrom (fun i => (entryAt (with_capacity n : OpenAddressingMap K V)
      (probeIdx (hash k) (capacity (with_capacity n : OpenAddressingMap K V)) i)).is_this k)
      0 (capacity (with_capacity n : OpenAddressingMap K V)) = none :=
    firstFrom_eq_none.mpr (fun t _ _ => by
      rw [entryAt_with_capacity (show probeIdx (hash k)
        (capacity (with_capacity n : OpenAddressingMap K V)) t < find_next_prime n
        from Nat.mod_lt _ hpos)]
      rfl)
  rw [hfs]

/-- The rebuild loop of ensure_capacity: folding the drained entries into a
fresh half-empty map re-inserts exactly the alive pairs, never re-triggers
growth, and preserves the invariant. -/
theorem rebuild_fold_spec (fuel : Nat) (hfuel : 1 ≤ fuel) :
    ∀ (L : List (Entry K V)) (acc : OpenAddressingMap K V),
      Inv hash acc →
      acc.number_used = acc.number_alive →
      acc.number_alive + countAlive L ≤ capacity acc / 2 →
      (∀ e ∈ L, ∀ kv, e.inner = some kv → get hash acc kv.1 = none) →
      ((L.filterMap Entry.inner).map Prod.fst).Nodup →
      ∃ m1, L.foldl (fun acc2 e => acc2.bind fun accm =>
          match e.inner with
          | some kv => (insertGo hash needsDropV dV fuel accm kv.1 kv.2).map Prod.snd
          | none => some accm) (some acc) = some m1 ∧
        Inv hash m1 ∧ capacity m1 = capacity acc ∧
        m1.number_used = m1.number_alive ∧
        m1.number_alive = acc.number_alive + countAlive L ∧
        (∀ k2, get hash m1 k2 = match lookupPairs (L.filterMap Entry.inner) k2 with
          | some v => some v
          | none => get hash acc k2) := by
  intro L
  induction L with
  | nil =>
    intro acc hIacc hua hbound hfresh hnd
    refine ⟨acc, rfl, hIacc, rfl, hua, by unfold countAlive; simp, ?_⟩
    intro k2
    rfl
  | cons e L ih =>
    intro acc hIacc hua hbound hfresh hnd
    cases he : e.inner with
    | none =>
      have hstep : (some acc).bind (fun accm =>
          match e.inner with
          | some kv => (insertGo hash needsDropV dV fuel accm kv.1 kv.2).map Prod.snd
          | none => some accm) = some acc := by
        show (match e.inner with
          | some kv => (insertGo hash needsDropV dV fuel acc kv.1 kv.2).map Prod.snd
          | none => some acc) = some acc
        rw [he]
      have hca : countAlive (e :: L) = countAlive L := by
        unfold countAlive
        rw [List.countP_cons]
        have hae : Entry.alive e = false := by unfold Entry.alive; rw [he]; rfl
        rw [hae]
        simp
      have hfm : (e :: L).filterMap Entry.inner = L.filterMap Entry.inner := by
        simp [List.filterMap_cons, he]
      rw [hca] at hbound
      rw [hfm] at hnd
      rcases ih acc hIacc hua hbound
          (fun e2 he2 => hfresh e2 (List.mem_cons_of_mem _ he2)) hnd with
        ⟨m1, hfold, hI1, hc1, hu1, ha1, hl1⟩
      refine ⟨m1, ?_, hI1, hc1, hu1, by rw [hca]; exact ha1, ?_⟩
      · simp only [List.foldl_cons]
        rw [hstep]
        exact hfold
      · intro k2
        rw [hfm]
        exact hl1 k2
    | some kv =>
      obtain ⟨k0, v0⟩ := kv
      have hfresh0 : get hash acc k0 = none := hfresh e (List.mem_cons_self _ _) (k0, v0) he
      have hca : countAlive (e :: L) = countAlive L + 1 := by
        unfold countAlive
        rw [List.countP_cons]
        have hae : Entry.alive e = true := by unfold Entry.alive; rw [he]; rfl
        rw [hae]
        simp
      have htrig : ¬ acc.number_used > capacity acc / 2 := by omega
      obtain ⟨f, rfl⟩ : ∃ f, fuel = f + 1 := ⟨fuel - 1, by omega⟩
      have hins : insertGo hash needsDropV dV (f + 1) acc k0 v0
          = insert_inner hash acc k0 v0 := by
        rw [insertGo_succ, ensure_capacityGo_not_trigger hash needsDropV dV htrig]
        rfl
      rcases insert_inner_spec hash hIacc k0 v0 (by omega) with
        ⟨m2, hins2, hI2, hc2, _hp2, hg2v, hg2o, ha2, hu2⟩
      rw [hfresh0] at hins2 ha2 hu2
      simp only [Option.isSome_none, Bool.false_eq_true, if_false] at ha2 hu2
      have hstep : (some acc).bind (fun accm =>
          match e.inner with
          | some kv2 => (insertGo hash needsDropV dV (f + 1) accm kv2.1 kv2.2).map Prod.snd
          | none => some accm) = some m2 := by
        show (match e.inner with
          | some kv2 => (insertGo hash needsDropV dV (f + 1) acc kv2.1 kv2.2).map Prod.snd
          | none => some acc) = some m2
        rw [he]
        show (insertGo hash needsDropV dV (f + 1) acc k0 v0).map Prod.snd = some m2
        rw [hins, hins2]
        rfl
      have hfm : (e :: L).filterMap Entry.inner = (k0, v0) :: L.filterMap Entry.inner := by
        simp [List.filterMap_cons, he]
      have hnd2 : ((L.filterMap Entry.inner).map Prod.fst).Nodup ∧
          k0 ∉ (L.filterMap Entry.inner).map Prod.fst := by
        rw [hfm] at hnd
        simp only [List.map_cons] at hnd
        rw [List.nodup_cons] at hnd
        exact ⟨hnd.2, hnd.1⟩
      have hfresh2 : ∀ e2 ∈ L, ∀ kv2, e2.inner = some kv2 → get hash m2 kv2.1 = none := by
        intro e2 he2 kv2 hkv2
        have hk2ne : kv2.1 ≠ k0 := by
          intro hceq
          apply hnd2.2
          rw [← hceq]
          exact List.mem_map.mpr ⟨kv2, List.mem_filterMap.mpr ⟨e2, he2, hkv2⟩, rfl⟩
        rw [hg2o kv2.1 hk2ne]
        exact hfresh e2 (List.mem_cons_of_mem _ he2) kv2 hkv2
      rcases ih m2 hI2 (by omega) (by rw [hc2]; omega) hfresh2 hnd2.1 with
        ⟨m1, hfold, hI1, hc1, hu1, ha1, hl1⟩
      refine ⟨m1, ?_, hI1, by rw [hc1, hc2], hu1, by rw [hca]; omega, ?_⟩
      · simp only [List.foldl_cons]
        rw [hstep]
        exact hfold
      · intro k2
        rw [hl1 k2, hfm, lookupPairs_cons]
        by_cases hk : k0 = k2
        · subst hk
          have hlnone : lookupPairs (L.filterMap Entry.inner) k0 = none := by
            apply lookupPairs_eq_none
            intro kv hkv hc
            apply hnd2.2
            rw [← hc]
            exact List.mem_map.mpr ⟨kv, hkv, rfl⟩
          rw [hlnone, if_pos rfl]
          exact hg2v
        · rw [if_neg hk]
          cases hlk : lookupPairs (L.filterMap Entry.inner) k2 with
          | none => exact hg2o k2 (fun hcc => hk hcc.symm)
          | some w => rfl

end OpenAddressingMap

namespace OpenAddressingMap

variable {K V : Type} [DecidableEq K] (hash : K → Nat) (needsDropV : Bool) (dV : V → V)

/-- Specification of ensure_capacity: it always succeeds on an
invariant-respecting map, leaves at most half the slots used, preserves the
invariant and every lookup, keeps number_alive, compacts number_used down to
number_alive exactly when it rebuilds, and follows the spec's capacity rule. -/
theorem ensure_capacityGo_spec (fuel : Nat) {m : OpenAddressingMap K V} (hI : Inv hash m)
    (hfuel : 1 ≤ fuel) :
    ∃ m1, ensure_capacityGo hash needsDropV dV fuel m = some m1 ∧ Inv hash m1 ∧
      m1.number_used ≤ capacity m1 / 2 ∧
      (∀ k2, get hash m1 k2 = get hash m k2) ∧
      m1.number_alive = m.number_alive ∧
      m1.number_used = (if m.number_used > capacity m / 2 then m.number_alive
        else m.number_used) ∧
      capacity m1 = (if m.number_used > capacity m / 2 then
        find_next_prime (if capacity m - m.number_alive > capacity m / 2 then capacity m
          else capacity m * 2) else capacity m) := by
  by_cases htrig : m.number_used > capacity m / 2
  · have hEC : ensure_capacityGo hash needsDropV dV fuel m
        = m.entries.elems.foldl (fun acc2 e => acc2.bind fun accm =>
            match e.inner with
            | some kv => (insertGo hash needsDropV dV fuel accm kv.1 kv.2).map Prod.snd
            | none => some accm)
          (some (with_capacity (if capacity m - m.number_alive > capacity m / 2
            then capacity m else capacity m * 2))) := by
      unfold ensure_capacityGo
      rw [if_pos htrig]
      rw [drainList_of_free needsDropV dV hI.mode_free]
    have hcaA : countAlive m.entries.elems = m.number_alive := hI.alive_eq.symm
    have hlen := hI.len_eq
    have hle_len : countAlive m.entries.elems ≤ m.entries.elems.length :=
      List.countP_le_length _
    have hcapP : Nat.Prime (capacity m) := hI.cap_prime
    have hbound : (0 : Nat) + countAlive m.entries.elems
        ≤ find_next_prime (if capacity m - m.number_alive > capacity m / 2
            then capacity m else capacity m * 2) / 2 := by
      by_cases hdead : capacity m - m.number_alive > capacity m / 2
      · rw [if_pos hdead, find_next_prime_of_prime hcapP]
        omega
      · rw [if_neg hdead]
        have hge := find_next_prime_ge (capacity m * 2)
        omega
    rcases rebuild_fold_spec hash needsDropV dV fuel hfuel m.entries.elems
        (with_capacity (if capacity m - m.number_alive > capacity m / 2
          then capacity m else capacity m * 2))
        (Inv_with_capacity hash _) rfl hbound
        (fun e _ kv _ => get_with_capacity_none hash _ kv.1)
        (keys_nodup_of_Inv hash hI) with
      ⟨m1, hfold, hI1, hc1, hu1, ha1, hl1⟩
    have hc1b : capacity m1 = find_next_prime (if capacity m - m.number_alive
        > capacity m / 2 then capacity m else capacity m * 2) := hc1
    have h0a : (with_capacity (if capacity m - m.number_alive > capacity m / 2
        then capacity m else capacity m * 2) : OpenAddressingMap K V).number_alive = 0 := rfl
    have ha1b : m1.number_alive = countAlive m.entries.elems := by
      rw [ha1, h0a]
      omega
    refine ⟨m1, by rw [hEC]; exact hfold, hI1, by omega, ?_, by omega, by rw [if_pos htrig]; omega, by rw [if_pos htrig]; exact hc1b⟩
    intro k2
    rw [hl1 k2, get_eq_lookupPairs hash hI k2]
    cases hlp : lookupPairs (m.entries.elems.filterMap Entry.inner) k2 with
    | none => exact get_with_capacity_none hash _ k2
    | some w => rfl
  · refine ⟨m, ensure_capacityGo_not_trigger hash needsDropV dV htrig, hI, by omega,
      fun k2 => rfl, rfl, ?_, ?_⟩
    · rw [if_neg htrig]
    · rw [if_neg htrig]

/-- Full specification of the growing insert at sufficient fuel. -/
theorem insertGo_spec (fuel : Nat) {m : OpenAddressingMap K V} (hI : Inv hash m)
    (hfuel : 2 ≤ fuel) (k : K) (v : V) :
    ∃ m1, insertGo hash needsDropV dV fuel m k v = some (get hash m k, m1) ∧
      Inv hash m1 ∧
      get hash m1 k = some v ∧
      (∀ k2, k2 ≠ k → get hash m1 k2 = get hash m k2) ∧
      m1.number_alive = m.number_alive + (if (get hash m k).isSome then 0 else 1) ∧
      m1.number_used = (if m.number_used > capacity m / 2 then m.number_alive
        else m.number_used) + (if (get hash m k).isSome then 0 else 1) ∧
      capacity m1 = (if m.number_used > capacity m / 2 then
        find_next_prime (if capacity m - m.number_alive > capacity m / 2 then capacity m
          else capacity m * 2) else capacity m) ∧
      m1.number_used ≤ capacity m1 / 2 + 1 := by
  obtain ⟨f, rfl⟩ : ∃ f, fuel = f + 1 := ⟨fuel - 1, by omega⟩
  rcases ensure_capacityGo_spec hash needsDropV dV f hI (by omega) with
    ⟨mE, hEC, hIE, hloadE, hgE, haE, huE, hcE⟩
  rcases insert_inner_spec hash hIE k v hloadE with
    ⟨m1, hII, hI1, hc1, _hp1, hg1v, hg1o, ha1, hu1⟩
  have hgEk : get hash mE k = get hash m k := hgE k
  refine ⟨m1, ?_, hI1, hg1v, ?_, ?_, ?_, ?_, ?_⟩
  · rw [insertGo_succ, hEC]
    show insert_inner hash mE k v = _
    rw [hII, hgEk]
  · intro k2 hk2
    rw [hg1o k2 hk2, hgE k2]
  · rw [ha1, haE, hgEk]
  · rw [hu1, huE, hgEk]
  · rw [hc1, hcE]
  · have hite : (if (get hash mE k).isSome then (0 : Nat) else 1) ≤ 1 := by
      split <;> omega
    omega

/-- OpenAddressingMap::insert meets the growing-insert specification. -/
theorem insert_spec {m : OpenAddressingMap K V} (hI : Inv hash m) (k : K) (v : V) :
    ∃ m1, insert hash needsDropV dV m k v = some (get hash m k, m1) ∧
      Inv hash m1 ∧
      get hash m1 k = some v ∧
      (∀ k2, k2 ≠ k → get hash m1 k2 = get hash m k2) ∧
      m1.number_alive = m.number_alive + (if (get hash m k).isSome then 0 else 1) ∧
      m1.number_used = (if m.number_used > capacity m / 2 then m.number_alive
        else m.number_used) + (if (get hash m k).isSome then 0 else 1) ∧
      capacity m1 = (if m.number_used > capacity m / 2 then
        find_next_prime (if capacity m - m.number_alive > capacity m / 2 then capacity m
          else capacity m * 2) else capacity m) ∧
      m1.number_used ≤ capacity m1 / 2 + 1 :=
  insertGo_spec hash needsDropV dV _ hI (by omega) k v

end OpenAddressingMap

namespace OpenAddressingMap

variable {K V : Type} [DecidableEq K] (hash : K → Nat)

/-- The probe walk of insert always stops on an invariant-respecting map with
at most half the slots used: a free slot lies within the first half of the
probe sequence. -/
theorem insert_stop_isSome {m : OpenAddressingMap K V} (hI : Inv hash m) (k : K)
    (hload : m.number_used ≤ capacity m / 2) :
    ∃ s, insert_stop hash m k = some s ∧ s < capacity m ∧
      ((entryAt m (probeIdx (hash k) (capacity m) s)).free = true ∨
       (entryAt m (probeIdx (hash k) (capacity m) s)).is_this k = true) ∧
      ∀ t, t < s → (entryAt m (probeIdx (hash k) (capacity m) t)).free = false ∧
        (entryAt m (probeIdx (hash k) (capacity m) t)).is_this k = false := by
  have hlen : m.entries.elems.length = capacity m := hI.len_eq
  have hcap2 : 2 ≤ capacity m := hI.cap_prime.two_le
  obtain ⟨s0, hs0le, hs0used⟩ := exists_unused_probe m.entries.elems (hash k)
      (by rw [hlen]; exact hI.cap_prime)
      (by rw [hlen]; have := hI.used_eq; omega)
  rw [hlen] at hs0le hs0used
  have hs0free : (entryAt m (probeIdx (hash k) (capacity m) s0)).free = true := by
    have hu : (entryAt m (probeIdx (hash k) (capacity m) s0)).used = false := hs0used
    rw [Entry.free_eq_not_used, hu]
    rfl
  obtain ⟨s, hs⟩ : ∃ s, insert_stop hash m k = some s := by
    cases hfs : insert_stop hash m k with
    | none =>
      exfalso
      have hn := firstFrom_eq_none.mp hfs s0 (Nat.zero_le _) (by omega)
      rw [Bool.or_eq_false_iff] at hn
      rw [hn.1] at hs0free
      exact Bool.noConfusion hs0free
    | some s => exact ⟨s, rfl⟩
  rcases firstFrom_eq_some.mp hs with ⟨-, hslt, hsp, hsmin⟩
  rw [Nat.zero_add] at hslt
  refine ⟨s, hs, hslt, ?_, ?_⟩
  · rw [Bool.or_eq_true] at hsp
    exact hsp
  · intro t ht
    have hmt := hsmin t (Nat.zero_le _) ht
    rw [Bool.or_eq_false_iff] at hmt
    exact hmt

/-- Placing a fresh alive entry at the stop slot of a free-ending probe walk
preserves the invariant, with both counters bumped. -/
theorem Inv_place {m : OpenAddressingMap K V} (hI : Inv hash m) (k : K) {s : Nat}
    (hs : insert_stop hash m k = some s)
    (hfree : (entryAt m (probeIdx (hash k) (capacity m) s)).free = true) (v : V) :
    Inv hash (⟨m.number_alive + 1, m.number_used + 1,
      ⟨m.entries.ptr, m.entries.elems.set (probeIdx (hash k) (capacity m) s)
        ⟨hash k, false, some (k, v)⟩, m.entries.cap⟩⟩ : OpenAddressingMap K V) := by
  have hlen : m.entries.elems.length = capacity m := hI.len_eq
  have hcap2 : 2 ≤ capacity m := hI.cap_prime.two_le
  have hcpos : 0 < capacity m := by omega
  rcases firstFrom_eq_some.mp hs with ⟨-, hslt, hsp, hsmin⟩
  rw [Nat.zero_add] at hslt
  have hidxcap : probeIdx (hash k) (capacity m) s < capacity m := Nat.mod_lt _ hcpos
  have hidxlen : probeIdx (hash k) (capacity m) s < m.entries.elems.length := by omega
  have hminfacts : ∀ t, t < s →
      (entryAt m (probeIdx (hash k) (capacity m) t)).free = false ∧
      (entryAt m (probeIdx (hash k) (capacity m) t)).is_this k = false := by
    intro t ht
    have hmt := hsmin t (Nat.zero_le _) ht
    rw [Bool.or_eq_false_iff] at hmt
    exact hmt
  have hnokey := no_key_of_stop_free hash hI hs hfree
  rcases hE : entryAt m (probeIdx (hash k) (capacity m) s) with ⟨eh, et, einn⟩
  rw [hE] at hfree
  have hinn : einn = none := (Entry.free_iff.mp hfree).1
  have htomb : et = false := (Entry.free_iff.mp hfree).2
  subst hinn
  subst htomb
  set idx := probeIdx (hash k) (capacity m) s with hidxdef
  set M1 : OpenAddressingMap K V :=
    ⟨m.number_alive + 1, m.number_used + 1,
      ⟨m.entries.ptr, m.entries.elems.set idx ⟨hash k, false, some (k, v)⟩,
        m.entries.cap⟩⟩ with hM1def
  have hM1cap : capacity M1 = capacity m := by rw [hM1def]; rfl
  have hself : entryAt M1 idx = (⟨hash k, false, some (k, v)⟩ : Entry K V) := by
    rw [hM1def]
    exact getD_set_self _ _ _ _ hidxlen
  have hne : ∀ j, j ≠ idx → entryAt M1 j = entryAt m j := by
    intro j hj
    rw [hM1def]
    exact getD_set_ne _ _ _ _ _ (Ne.symm hj)
  have hgd : m.entries.elems.getD idx Entry.default
      = (⟨eh, false, none⟩ : Entry K V) := hE
  refine ⟨?_, ?_, ?_, ?_, ?_, ?_, ?_⟩
  · rw [hM1def]
    show (m.entries.elems.set idx _).length = _
    rw [List.length_set]
    exact hlen
  · rw [hM1cap]
    exact hI.cap_prime
  · rw [hM1def]
    exact hI.mode_free
  · rw [hM1def]
    show m.number_alive + 1 = countAlive (m.entries.elems.set idx _)
    unfold countAlive
    rw [countP_set_incr _ _ Entry.default hidxlen (by rw [hgd]; rfl) rfl]
    have := hI.alive_eq
    unfold countAlive at this
    omega
  · rw [hM1def]
    show m.number_used + 1 = countUsed (m.entries.elems.set idx _)
    unfold countUsed
    rw [countP_set_incr _ _ Entry.default hidxlen (by rw [hgd]; rfl) rfl]
    have := hI.used_eq
    unfold countUsed at this
    omega
  · intro i j k0 hi hj hij hti htj
    rw [hM1cap] at hi hj
    by_cases hii : i = idx
    · subst hii
      rw [hself] at hti
      have hk0 : k = k0 := of_decide_eq_true hti
      subst hk0
      rw [hne j (Ne.symm hij)] at htj
      rw [hnokey j hj] at htj
      exact Bool.noConfusion htj
    · by_cases hjj : j = idx
      · subst hjj
        rw [hself] at htj
        have hk0 : k = k0 := of_decide_eq_true htj
        subst hk0
        rw [hne i hii] at hti
        rw [hnokey i hi] at hti
        exact Bool.noConfusion hti
      · rw [hne i hii] at hti
        rw [hne j hjj] at htj
        exact hI.distinct i j k0 hi hj hij hti htj
  · intro idx2 k0 h2 ht2
    rw [hM1cap] at h2
    simp only [hM1cap]
    by_cases h2i : idx2 = idx
    · subst h2i
      rw [hself] at ht2
      have hk0 : k = k0 := of_decide_eq_true ht2
      subst hk0
      refine ⟨s, by omega, hidxdef.symm, ?_⟩
      intro t ht
      have hptne : probeIdx (hash k) (capacity m) t ≠ idx := by
        intro heqp
        have hmf := (hminfacts t ht).1
        rw [heqp, hE] at hmf
        exact Bool.noConfusion hmf
      rw [hne _ hptne]
      exact (hminfacts t ht).1
    · rw [hne _ h2i] at ht2
      rcases hI.before_free idx2 k0 h2 ht2 with ⟨s2, hs2cap, hs2idx, hs2nf⟩
      refine ⟨s2, hs2cap, hs2idx, ?_⟩
      intro t ht
      by_cases hpt : probeIdx (hash k0) (capacity m) t = idx
      · rw [hpt, hself]
        rfl
      · rw [hne _ hpt]
        exact hs2nf t ht

/-- Overwriting only the value of an alive entry preserves the invariant and
both counters. -/
theorem Inv_set_value {m : OpenAddressingMap K V} (hI : Inv hash m) {idx : Nat}
    (hidxcap : idx < capacity m) {eh : Nat} {et : Bool} {k : K} {vold : V}
    (hE : entryAt m idx = ⟨eh, et, some (k, vold)⟩) (v : V) :
    Inv hash (⟨m.number_alive, m.number_used,
      ⟨m.entries.ptr, m.entries.elems.set idx ⟨eh, et, some (k, v)⟩,
        m.entries.cap⟩⟩ : OpenAddressingMap K V) := by
  have hlen : m.entries.elems.length = capacity m := hI.len_eq
  have hidxlen : idx < m.entries.elems.length := by omega
  set M1 : OpenAddressingMap K V :=
    ⟨m.number_alive, m.number_used,
      ⟨m.entries.ptr, m.entries.elems.set idx ⟨eh, et, some (k, v)⟩,
        m.entries.cap⟩⟩ with hM1def
  have hM1cap : capacity M1 = capacity m := by rw [hM1def]; rfl
  have hself : entryAt M1 idx = (⟨eh, et, some (k, v)⟩ : Entry K V) := by
    rw [hM1def]
    exact getD_set_self _ _ _ _ hidxlen
  have hne : ∀ j, j ≠ idx → entryAt M1 j = entryAt m j := by
    intro j hj
    rw [hM1def]
    exact getD_set_ne _ _ _ _ _ (Ne.symm hj)
  have hgd : m.entries.elems.getD idx Entry.default
      = (⟨eh, et, some (k, vold)⟩ : Entry K V) := hE
  have hconv : ∀ k0 jj, jj < capacity m → (entryAt M1 jj).is_this k0 = true →
      (entryAt m jj).is_this k0 = true := by
    intro k0 jj hjj htt
    by_cases hji : jj = idx
    · subst hji
      rw [hself] at htt
      rw [hE]
      exact htt
    · rw [hne _ hji] at htt
      exact htt
  refine ⟨?_, ?_, ?_, ?_, ?_, ?_, ?_⟩
  · rw [hM1def]
    show (m.entries.elems.set idx _).length = _
    rw [List.length_set]
    exact hlen
  · rw [hM1cap]
    exact hI.cap_prime
  · rw [hM1def]
    exact hI.mode_free
  · rw [hM1def]
    show m.number_alive = countAlive (m.entries.elems.set idx _)
    unfold countAlive
    rw [countP_set_same _ _ Entry.default hidxlen (by rw [hgd]; rfl)]
    exact hI.alive_eq
  · rw [hM1def]
    show m.number_used = countUsed (m.entries.elems.set idx _)
    unfold countUsed
    rw [countP_set_same _ _ Entry.default hidxlen (by rw [hgd]; simp [Entry.used])]
    exact hI.used_eq
  · intro i j k0 hi hj hij hti htj
    rw [hM1cap] at hi hj
    exact hI.distinct i j k0 hi hj hij (hconv k0 i hi hti) (hconv k0 j hj htj)
  · intro idx2 k0 h2 ht2
    rw [hM1cap] at h2
    simp only [hM1cap]
    have ht2m := hconv k0 idx2 h2 ht2
    rcases hI.before_free idx2 k0 h2 ht2m with ⟨s2, hs2cap, hs2idx, hs2nf⟩
    refine ⟨s2, hs2cap, hs2idx, ?_⟩
    intro t ht
    by_cases hpt : probeIdx (hash k0) (capacity m) t = idx
    · rw [hpt, hself]
      rfl
    · rw [hne _ hpt]
      exact hs2nf t ht

end OpenAddressingMap

namespace OpenAddressingMap

variable {K I : Type} [DecidableEq K] (hash : K → Nat)
  (needsDropV : Bool) (dV : CompactVec I → CompactVec I) (dI : I → I)

/-- push_at with any sufficient fuel succeeds on an invariant-respecting map and
preserves the invariant. -/
theorem push_atGo_spec (fuel : Nat) {m : OpenAddressingMap K (CompactVec I)}
    (hI : Inv hash m) (hfuel : 1 ≤ fuel) (k : K) (item : I) :
    ∃ m1, push_atGo hash needsDropV dV dI fuel m k item = some m1 ∧ Inv hash m1 := by
  rcases ensure_capacityGo_spec hash needsDropV dV fuel hI hfuel with
    ⟨mE, hEC, hIE, hloadE, _hgE, _haE, _huE, _hcE⟩
  have hpredeq : ∀ t, 0 ≤ t → t < 0 + capacity mE →
      ((entryAt mE (probeIdx (hash k) (capacity mE) t)).is_this k ||
        !(entryAt mE (probeIdx (hash k) (capacity mE) t)).used)
      = ((entryAt mE (probeIdx (hash k) (capacity mE) t)).free ||
        (entryAt mE (probeIdx (hash k) (capacity mE) t)).is_this k) := by
    intro t _ _
    rw [Entry.free_eq_not_used]
    exact Bool.or_comm _ _
  have hstopeq : firstFrom (fun i =>
      (entryAt mE (probeIdx (hash k) (capacity mE) i)).is_this k ||
      !(entryAt mE (probeIdx (hash k) (capacity mE) i)).used) 0 (capacity mE)
      = insert_stop hash mE k := firstFrom_congr hpredeq
  rcases insert_stop_isSome hash hIE k hloadE with ⟨s, hs, hslt, hsor, hsmin⟩
  have hidxcap : probeIdx (hash k) (capacity mE) s < capacity mE :=
    Nat.mod_lt _ (hIE.cap_pos hash)
  by_cases hthis : (entryAt mE (probeIdx (hash k) (capacity mE) s)).is_this k = true
  · rcases hE : entryAt mE (probeIdx (hash k) (capacity mE) s) with ⟨eh, et, einn⟩
    rw [hE] at hthis
    rcases Entry.is_this_iff.mp hthis with ⟨vold, hvold⟩
    have hinn : einn = some (k, vold) := hvold
    subst hinn
    have h1 : push_at_inner hash dI mE k item = some (false,
        setEntry mE (probeIdx (hash k) (capacity mE) s)
          ⟨eh, et, some (k, CompactVec.push dI vold item)⟩) := by
      unfold push_at_inner
      rw [hstopeq, hs]
      show (if (entryAt mE (probeIdx (hash k) (capacity mE) s)).is_this k = true
            then some (false, setEntry mE (probeIdx (hash k) (capacity mE) s)
              ⟨(entryAt mE (probeIdx (hash k) (capacity mE) s)).hash,
               (entryAt mE (probeIdx (hash k) (capacity mE) s)).tombstoned,
               (entryAt mE (probeIdx (hash k) (capacity mE) s)).inner.map
                 (fun kv => (kv.1, CompactVec.push dI kv.2 item))⟩)
            else some (true, setEntry mE (probeIdx (hash k) (capacity mE) s)
              ((entryAt mE (probeIdx (hash k) (capacity mE) s)).make_used (hash k) k
                (CompactVec.push dI CompactVec.new item)))) = _
      rw [hE]
      rw [if_pos (show Entry.is_this
          (⟨eh, et, some (k, vold)⟩ : Entry K (CompactVec I)) k = true
          from decide_eq_true rfl)]
      rfl
    refine ⟨setEntry mE (probeIdx (hash k) (capacity mE) s)
        ⟨eh, et, some (k, CompactVec.push dI vold item)⟩, ?_, ?_⟩
    · unfold push_atGo
      rw [hEC]
      show (push_at_inner hash dI mE k item).map (fun r =>
        if r.1 then ⟨r.2.number_alive + 1, r.2.number_used + 1, r.2.entries⟩
        else r.2) = some _
      rw [h1]
      rfl
    · exact Inv_set_value hash hIE hidxcap hE (CompactVec.push dI vold item)
  · have hfree : (entryAt mE (probeIdx (hash k) (capacity mE) s)).free = true := by
      rcases hsor with h | h
      · exact h
      · exact absurd h hthis
    rcases hE : entryAt mE (probeIdx (hash k) (capacity mE) s) with ⟨eh, et, einn⟩
    have hfree2 := hfree
    rw [hE] at hfree2
    have hinn : einn = none := (Entry.free_iff.mp hfree2).1
    have htomb : et = false := (Entry.free_iff.mp hfree2).2
    subst hinn
    subst htomb
    have h1 : push_at_inner hash dI mE k item = some (true,
        setEntry mE (probeIdx (hash k) (capacity mE) s)
          ⟨hash k, false, some (k, CompactVec.push dI CompactVec.new item)⟩) := by
      unfold push_at_inner
      rw [hstopeq, hs]
      show (if (entryAt mE (probeIdx (hash k) (capacity mE) s)).is_this k = true
            then some (false, setEntry mE (probeIdx (hash k) (capacity mE) s)
              ⟨(entryAt mE (probeIdx (hash k) (capacity mE) s)).hash,
               (entryAt mE (probeIdx (hash k) (capacity mE) s)).tombstoned,
               (entryAt mE (probeIdx (hash k) (capacity mE) s)).inner.map
                 (fun kv => (kv.1, CompactVec.push dI kv.2 item))⟩)
            else some (true, setEntry mE (probeIdx (hash k) (capacity mE) s)
              ((entryAt mE (probeIdx (hash k) (capacity mE) s)).make_used (hash k) k
                (CompactVec.push dI CompactVec.new item)))) = _
      rw [hE]
      rw [if_neg (show ¬ Entry.is_this
          (⟨eh, false, none⟩ : Entry K (CompactVec I)) k = true
          from Bool.false_ne_true)]
      rfl
    refine ⟨⟨mE.number_alive + 1, mE.number_used + 1,
        (setEntry mE (probeIdx (hash k) (capacity mE) s)
          ⟨hash k, false, some (k, CompactVec.push dI CompactVec.new item)⟩).entries⟩,
        ?_, ?_⟩
    · unfold push_atGo
      rw [hEC]
      show (push_at_inner hash dI mE k item).map (fun r =>
        if r.1 then ⟨r.2.number_alive + 1, r.2.number_used + 1, r.2.entries⟩
        else r.2) = some _
      rw [h1]
      rfl
    · exact Inv_place hash hIE k hs hfree (CompactVec.push dI CompactVec.new item)

/-- OpenAddressingMap::push_at succeeds and preserves the invariant. -/
theorem push_at_spec {m : OpenAddressingMap K (CompactVec I)} (hI : Inv hash m)
    (k : K) (item : I) :
    ∃ m1, push_at hash needsDropV dV dI m k item = some m1 ∧ Inv hash m1 :=
  push_atGo_spec hash needsDropV dV dI _ hI (by omega) k item

/-- Every reachable map state satisfies the data-structure invariant. -/
theorem Reachable_Inv {m : OpenAddressingMap K (CompactVec I)}
    (hR : Reachable hash needsDropV dV dI m) : Inv hash m := by
  induction hR with
  | base n => exact Inv_with_capacity hash n
  | ins hR hins ih =>
    rcases insert_spec hash needsDropV dV ih _ _ with ⟨m2, heq, hI2, -, -, -, -, -, -⟩
    rw [hins] at heq
    injection heq with heq
    injection heq with h1 h2
    rw [h2]
    exact hI2
  | rem hR ih =>
    rcases remove_spec hash ih _ with ⟨m2, heq, hI2, -, -, -, -, -, -⟩
    rw [heq]
    exact hI2
  | pushStep hR hpush ih =>
    rcases push_at_spec hash needsDropV dV dI ih _ _ with ⟨m2, heq, hI2⟩
    rw [hpush] at heq
    injection heq with heq
    rw [heq]
    exact hI2

end OpenAddressingMap

namespace OpenAddressingMap

variable {K V : Type} [DecidableEq K] (hash : K → Nat) (needsDropV : Bool) (dV : V → V)

theorem countAlive_le_countUsed : ∀ (l : List (Entry K V)), countAlive l ≤ countUsed l := by
  intro l
  induction l with
  | nil => exact Nat.le_refl _
  | cons e l ih =>
    unfold countAlive countUsed at *
    rw [List.countP_cons, List.countP_cons]
    have h1 : (if e.alive = true then 1 else 0) ≤ (if e.used = true then 1 else 0) := by
      by_cases he : e.alive = true
      · rw [if_pos he, if_pos (by
          simp only [Entry.alive] at he
          simp [Entry.used, he])]
      · rw [if_neg he]
        exact Nat.zero_le _
    omega

/-- Sequencing fresh distinct keys through insert: every insert succeeds, the
invariant is preserved, the inserted pairs are all retrievable, other keys are
untouched, and the counters and capacity follow the iterated abstract
transition insStep. -/
theorem insertSeq_spec :
    ∀ (ps : List (K × V)) (m : OpenAddressingMap K V), Inv hash m →
      (∀ kv ∈ ps, get hash m kv.1 = none) → (ps.map Prod.fst).Nodup →
      ∃ m1, insertSeq hash needsDropV dV m ps = some m1 ∧ Inv hash m1 ∧
        (∀ kv ∈ ps, get hash m1 kv.1 = some kv.2) ∧
        (∀ k, (∀ kv ∈ ps, kv.1 ≠ k) → get hash m1 k = get hash m k) ∧
        (m1.number_alive, m1.number_used, capacity m1)
          = insStep^[ps.length] (m.number_alive, m.number_used, capacity m) := by
  intro ps
  induction ps with
  | nil =>
    intro m hI _ _
    exact ⟨m, rfl, hI, by simp, fun k _ => rfl, rfl⟩
  | cons kv0 ps ih =>
    intro m hI hfresh hnodup
    rcases insert_spec hash needsDropV dV hI kv0.1 kv0.2 with
      ⟨ma, hins, hIa, hgind, hgother, haA, huA, hcA, -⟩
    have hget0 : get hash m kv0.1 = none := hfresh kv0 (List.mem_cons_self _ _)
    have hnodup2 : (kv0.1 :: ps.map Prod.fst).Nodup := by simpa using hnodup
    have hnotin : kv0.1 ∉ ps.map Prod.fst := (List.nodup_cons.mp hnodup2).1
    have htail : (ps.map Prod.fst).Nodup := (List.nodup_cons.mp hnodup2).2
    have hstep : (ma.number_alive, ma.number_used, capacity ma)
        = insStep (m.number_alive, m.number_used, capacity m) := by
      rw [hget0] at haA huA
      simp only [Option.isSome_none] at haA huA
      rw [if_neg Bool.false_ne_true] at haA huA
      dsimp only [insStep]
      by_cases htrig : m.number_used > capacity m / 2
      · rw [if_pos htrig] at huA hcA
        rw [if_pos htrig, haA, huA, hcA]
      · rw [if_neg htrig] at huA hcA
        rw [if_neg htrig, haA, huA, hcA]
    have hfresh2 : ∀ kv ∈ ps, get hash ma kv.1 = none := by
      intro kv hkv
      have hne : kv.1 ≠ kv0.1 := by
        intro he
        exact hnotin (he ▸ List.mem_map_of_mem Prod.fst hkv)
      rw [hgother kv.1 hne]
      exact hfresh kv (List.mem_cons_of_mem _ hkv)
    rcases ih ma hIa hfresh2 htail with ⟨m1, hseq, hI1, hga, hgb, hcnt⟩
    refine ⟨m1, ?_, hI1, ?_, ?_, ?_⟩
    · show (insert hash needsDropV dV m kv0.1 kv0.2).bind
        (fun r => insertSeq hash needsDropV dV r.2 ps) = some m1
      rw [hins]
      show insertSeq hash needsDropV dV ma ps = some m1
      exact hseq
    · intro kv hkv
      rcases List.mem_cons.mp hkv with he | hm
      · subst he
        have hno : ∀ kv2 ∈ ps, kv2.1 ≠ kv.1 := fun kv2 h2 he2 =>
          hnotin (he2 ▸ List.mem_map_of_mem Prod.fst h2)
        rw [hgb kv.1 hno]
        exact hgind
      · exact hga kv hm
    · intro k hk
      have h1 : get hash m1 k = get hash ma k :=
        hgb k (fun kv2 h2 => hk kv2 (List.mem_cons_of_mem _ h2))
      have h2 : get hash ma k = get hash m k :=
        hgother k (Ne.symm (hk kv0 (List.mem_cons_self _ _)))
      rw [h1, h2]
    · rw [hcnt, hstep, List.length_cons, Function.iterate_succ_apply]

/-- Sequencing distinct present keys through remove: the invariant is kept, the
removed keys become absent, other keys and number_used are untouched, the
capacity is unchanged, and number_alive drops by the number of removals. -/
theorem removeSeq_spec :
    ∀ (ks : List K) (m : OpenAddressingMap K V), Inv hash m → ks.Nodup →
      (∀ k2 ∈ ks, (get hash m k2).isSome = true) →
      Inv hash (removeSeq hash m ks) ∧
      (removeSeq hash m ks).number_alive + ks.length = m.number_alive ∧
      (removeSeq hash m ks).number_used = m.number_used ∧
      capacity (removeSeq hash m ks) = capacity m ∧
      (∀ k2 ∈ ks, get hash (removeSeq hash m ks) k2 = none) ∧
      (∀ k2, k2 ∉ ks → get hash (removeSeq hash m ks) k2 = get hash m k2) := by
  intro ks
  induction ks with
  | nil =>
    intro m hI _ _
    exact ⟨hI, rfl, rfl, rfl, by simp, fun k2 _ => rfl⟩
  | cons k0 ks ih =>
    intro m hI hnodup hpres
    rcases remove_spec hash hI k0 with ⟨ma, hrem, hIa, hcapA, -, hgnone, hgother, huA, haA⟩
    have hremA : (remove hash m k0).2 = ma := by rw [hrem]
    have hpres0 : (get hash m k0).isSome = true := hpres k0 (List.mem_cons_self _ _)
    rw [hpres0, if_pos rfl] at haA
    have hnotin : k0 ∉ ks := (List.nodup_cons.mp hnodup).1
    have htail : ks.Nodup := (List.nodup_cons.mp hnodup).2
    have hpres2 : ∀ k2 ∈ ks, (get hash ma k2).isSome = true := by
      intro k2 h2
      rw [hgother k2 (fun he => hnotin (he ▸ h2))]
      exact hpres k2 (List.mem_cons_of_mem _ h2)
    rcases ih ma hIa htail hpres2 with ⟨hI1, ha1, hu1, hc1, hg1, hg2⟩
    have hunfold : removeSeq hash m (k0 :: ks) = removeSeq hash ma ks := by
      show removeSeq hash (remove hash m k0).2 ks = _
      rw [hremA]
    refine ⟨by rw [hunfold]; exact hI1, ?_, ?_, ?_, ?_, ?_⟩
    · rw [hunfold, List.length_cons]
      omega
    · rw [hunfold, hu1, huA]
    · rw [hunfold, hc1, hcapA]
    · intro k2 h2
      rcases List.mem_cons.mp h2 with he | hm
      · subst he
        rw [hunfold]
        by_cases hin : k2 ∈ ks
        · exact hg1 k2 hin
        · rw [hg2 k2 hin]
          exact hgnone
      · rw [hunfold]
        exact hg1 k2 hm
    · intro k2 h2
      rw [hunfold, hg2 k2 (fun hm => h2 (List.mem_cons_of_mem _ hm)),
        hgother k2 (fun he => h2 (by rw [he]; exact List.mem_cons_self _ _))]

end OpenAddressingMap

/-! The abstract counter trace of the spec's concrete scenario: the iterated
insStep is computed symbolically, as alternating calm runs (no rebuild) and
single rebuild steps whose find_next_prime value is settled by minimality. -/

theorem iterate_chunk {α : Type} (f : α → α) (m n : Nat) {x y z : α}
    (h1 : f^[n] x = y) (h2 : f^[m] y = z) : f^[m + n] x = z := by
  rw [Function.iterate_add_apply f m n x, h1, h2]

/-- find_next_prime n is the one prime at or above n below which no prime
at or above n lies. -/
theorem fnp_eq_of (n p : Nat) (hp : Nat.Prime p) (hle : n ≤ p)
    (hnone : ∀ r, n ≤ r → r < p → ¬ Nat.Prime r) : find_next_prime n = p := by
  rcases find_next_prime_spec n with ⟨h1, h2, h3⟩
  rcases Nat.lt_trichotomy (find_next_prime n) p with h | h | h
  · exact absurd h1 (hnone _ h2 h)
  · exact h
  · exact absurd hp (h3 p hle h)

theorem fnp10 : find_next_prime 10 = 11 :=
  fnp_eq_of 10 11 (by norm_num) (by norm_num)
    (fun r h1 h2 => by interval_cases r <;> norm_num)

theorem fnp22 : find_next_prime 22 = 23 :=
  fnp_eq_of 22 23 (by norm_num) (by norm_num)
    (fun r h1 h2 => by interval_cases r <;> norm_num)

theorem fnp46 : find_next_prime 46 = 47 :=
  fnp_eq_of 46 47 (by norm_num) (by norm_num)
    (fun r h1 h2 => by interval_cases r <;> norm_num)

theorem fnp94 : find_next_prime 94 = 97 :=
  fnp_eq_of 94 97 (by norm_num) (by norm_num)
    (fun r h1 h2 => by interval_cases r <;> norm_num)

theorem fnp194 : find_next_prime 194 = 197 :=
  fnp_eq_of 194 197 (by norm_num) (by norm_num)
    (fun r h1 h2 => by interval_cases r <;> norm_num)

theorem fnp394 : find_next_prime 394 = 397 :=
  fnp_eq_of 394 397 (by norm_num) (by norm_num)
    (fun r h1 h2 => by interval_cases r <;> norm_num)

theorem fnp794 : find_next_prime 794 = 797 :=
  fnp_eq_of 794 797 (by norm_num) (by norm_num)
    (fun r h1 h2 => by interval_cases r <;> norm_num)

theorem fnp1594 : find_next_prime 1594 = 1597 :=
  fnp_eq_of 1594 1597 (by norm_num) (by norm_num)
    (fun r h1 h2 => by interval_cases r <;> norm_num)

theorem fnp3194 : find_next_prime 3194 = 3203 :=
  fnp_eq_of 3194 3203 (by norm_num) (by norm_num)
    (fun r h1 h2 => by interval_cases r <;> norm_num)

/-- A run of inserts that never triggers a rebuild bumps both counters once
per insert and keeps the capacity. -/
theorem insStep_calm : ∀ (k a u c : Nat), u + k ≤ c / 2 + 1 →
    insStep^[k] (a, u, c) = (a + k, u + k, c) := by
  intro k
  induction k with
  | zero => intro a u c _; simp
  | succ k ih =>
    intro a u c h
    rw [Function.iterate_succ_apply]
    have hstep : insStep (a, u, c) = (a + 1, u + 1, c) := by
      dsimp only [insStep]
      rw [if_neg (by omega)]
    rw [hstep, ih (a + 1) (u + 1) c (by omega)]
    have e1 : a + 1 + k = a + (k + 1) := by omega
    have e2 : u + 1 + k = u + (k + 1) := by omega
    rw [e1, e2]

/-- An insert that triggers a rebuild compacts number_used down to
number_alive and applies the capacity rule, then places the new entry. -/
theorem insStep_rebuild (a u c : Nat) (h : u > c / 2) :
    insStep (a, u, c) = (a + 1, a + 1,
      find_next_prime (if c - a > c / 2 then c else c * 2)) := by
  dsimp only [insStep]
  rw [if_pos h]

theorem c5_trace1 :
    insStep^[1000] ((0 : Nat), (0 : Nat), (5 : Nat)) = (1000, 1000, 3203) := by
  have cm1 : insStep^[3] ((0 : Nat), (0 : Nat), (5 : Nat)) = (3, 3, 5) :=
    insStep_calm 3 0 0 5 (by norm_num)
  have rb1 : insStep^[1] ((3 : Nat), (3 : Nat), (5 : Nat)) = (4, 4, 11) := by
    rw [Function.iterate_one, insStep_rebuild 3 3 5 (by norm_num)]
    norm_num [fnp10]
  have cm2 : insStep^[2] ((4 : Nat), (4 : Nat), (11 : Nat)) = (6, 6, 11) :=
    insStep_calm 2 4 4 11 (by norm_num)
  have rb2 : insStep^[1] ((6 : Nat), (6 : Nat), (11 : Nat)) = (7, 7, 23) := by
    rw [Function.iterate_one, insStep_rebuild 6 6 11 (by norm_num)]
    norm_num [fnp22]
  have cm3 : insStep^[5] ((7 : Nat), (7 : Nat), (23 : Nat)) = (12, 12, 23) :=
    insStep_calm 5 7 7 23 (by norm_num)
  have rb3 : insStep^[1] ((12 : Nat), (12 : Nat), (23 : Nat)) = (13, 13, 47) := by
    rw [Function.iterate_one, insStep_rebuild 12 12 23 (by norm_num)]
    norm_num [fnp46]
  have cm4 : insStep^[11] ((13 : Nat), (13 : Nat), (47 : Nat)) = (24, 24, 47) :=
    insStep_calm 11 13 13 47 (by norm_num)
  have rb4 : insStep^[1] ((24 : Nat), (24 : Nat), (47 : Nat)) = (25, 25, 97) := by
    rw [Function.iterate_one, insStep_rebuild 24 24 47 (by norm_num)]
    norm_num [fnp94]
  have cm5 : insStep^[24] ((25 : Nat), (25 : Nat), (97 : Nat)) = (49, 49, 97) :=
    insStep_calm 24 25 25 97 (by norm_num)
  have rb5 : insStep^[1] ((49 : Nat), (49 : Nat), (97 : Nat)) = (50, 50, 197) := by
    rw [Function.iterate_one, insStep_rebuild 49 49 97 (by norm_num)]
    norm_num [fnp194]
  have cm6 : insStep^[49] ((50 : Nat), (50 : Nat), (197 : Nat)) = (99, 99, 197) :=
    insStep_calm 49 50 50 197 (by norm_num)
  have rb6 : insStep^[1] ((99 : Nat), (99 : Nat), (197 : Nat)) = (100, 100, 397) := by
    rw [Function.iterate_one, insStep_rebuild 99 99 197 (by norm_num)]
    norm_num [fnp394]
  have cm7 : insStep^[99] ((100 : Nat), (100 : Nat), (397 : Nat)) = (199, 199, 397) :=
    insStep_calm 99 100 100 397 (by norm_num)
  have rb7 : insStep^[1] ((199 : Nat), (199 : Nat), (397 : Nat)) = (200, 200, 797) := by
    rw [Function.iterate_one, insStep_rebuild 199 199 397 (by norm_num)]
    norm_num [fnp794]
  have cm8 : insStep^[199] ((200 : Nat), (200 : Nat), (797 : Nat)) = (399, 399, 797) :=
    insStep_calm 199 200 200 797 (by norm_num)
  have rb8 : insStep^[1] ((399 : Nat), (399 : Nat), (797 : Nat)) = (400, 400, 1597) := by
    rw [Function.iterate_one, insStep_rebuild 399 399 797 (by norm_num)]
    norm_num [fnp1594]
  have cm9 : insStep^[399] ((400 : Nat), (400 : Nat), (1597 : Nat)) = (799, 799, 1597) :=
    insStep_calm 399 400 400 1597 (by norm_num)
  have rb9 : insStep^[1] ((799 : Nat), (799 : Nat), (1597 : Nat)) = (800, 800, 3203) := by
    rw [Function.iterate_one, insStep_rebuild 799 799 1597 (by norm_num)]
    norm_num [fnp3194]
  have cm10 : insStep^[200] ((800 : Nat), (800 : Nat), (3203 : Nat)) = (1000, 1000, 3203) :=
    insStep_calm 200 800 800 3203 (by norm_num)
  have t2 : insStep^[4] ((0 : Nat), (0 : Nat), (5 : Nat)) = (4, 4, 11) :=
    iterate_chunk insStep 1 3 cm1 rb1
  have t3 : insStep^[6] ((0 : Nat), (0 : Nat), (5 : Nat)) = (6, 6, 11) :=
    iterate_chunk insStep 2 4 t2 cm2
  have t4 : insStep^[7] ((0 : Nat), (0 : Nat), (5 : Nat)) = (7, 7, 23) :=
    iterate_chunk insStep 1 6 t3 rb2
  have t5 : insStep^[12] ((0 : Nat), (0 : Nat), (5 : Nat)) = (12, 12, 23) :=
    iterate_chunk insStep 5 7 t4 cm3
  have t6 : insStep^[13] ((0 : Nat), (0 : Nat), (5 : Nat)) = (13, 13, 47) :=
    iterate_chunk insStep 1 12 t5 rb3
  have t7 : insStep^[24] ((0 : Nat), (0 : Nat), (5 : Nat)) = (24, 24, 47) :=
    iterate_chunk insStep 11 13 t6 cm4
  have t8 : insStep^[25] ((0 : Nat), (0 : Nat), (5 : Nat)) = (25, 25, 97) :=
    iterate_chunk insStep 1 24 t7 rb4
  have t9 : insStep^[49] ((0 : Nat), (0 : Nat), (5 : Nat)) = (49, 49, 97) :=
    iterate_chunk insStep 24 25 t8 cm5
  have t10 : insStep^[50] ((0 : Nat), (0 : Nat), (5 : Nat)) = (50, 50, 197) :=
    iterate_chunk insStep 1 49 t9 rb5
  have t11 : insStep^[99] ((0 : Nat), (0 : Nat), (5 : Nat)) = (99, 99, 197) :=
    iterate_chunk insStep 49 50 t10 cm6
  have t12 : insStep^[100] ((0 : Nat), (0 : Nat), (5 : Nat)) = (100, 100, 397) :=
    iterate_chunk insStep 1 99 t11 rb6
  have t13 : insStep^[199] ((0 : Nat), (0 : Nat), (5 : Nat)) = (199, 199, 397) :=
    iterate_chunk insStep 99 100 t12 cm7
  have t14 : insStep^[200] ((0 : Nat), (0 : Nat), (5 : Nat)) = (200, 200, 797) :=
    iterate_chunk insStep 1 199 t13 rb7
  have t15 : insStep^[399] ((0 : Nat), (0 : Nat), (5 : Nat)) = (399, 399, 797) :=
    iterate_chunk insStep 199 200 t14 cm8
  have t16 : insStep^[400] ((0 : Nat), (0 : Nat), (5 : Nat)) = (400, 400, 1597) :=
    iterate_chunk insStep 1 399 t15 rb8
  have t17 : insStep^[799] ((0 : Nat), (0 : Nat), (5 : Nat)) = (799, 799, 1597) :=
    iterate_chunk insStep 399 400 t16 cm9
  have t18 : insStep^[800] ((0 : Nat), (0 : Nat), (5 : Nat)) = (800, 800, 3203) :=
    iterate_chunk insStep 1 799 t17 rb9
  exact iterate_chunk insStep 200 800 t18 cm10

theorem c5_trace3 :
    insStep^[1000] ((400 : Nat), (1000 : Nat), (3203 : Nat)) = (1400, 1400, 3203) := by
  have cm1 : insStep^[602] ((400 : Nat), (1000 : Nat), (3203 : Nat)) = (1002, 1602, 3203) :=
    insStep_calm 602 400 1000 3203 (by norm_num)
  have rb1 : insStep^[1] ((1002 : Nat), (1602 : Nat), (3203 : Nat)) = (1003, 1003, 3203) := by
    rw [Function.iterate_one, insStep_rebuild 1002 1602 3203 (by norm_num)]
    norm_num [find_next_prime_of_prime (by norm_num : Nat.Prime 3203)]
  have cm2 : insStep^[397] ((1003 : Nat), (1003 : Nat), (3203 : Nat)) = (1400, 1400, 3203) :=
    insStep_calm 397 1003 1003 3203 (by norm_num)
  have t2 : insStep^[603] ((400 : Nat), (1000 : Nat), (3203 : Nat)) = (1003, 1003, 3203) :=
    iterate_chunk insStep 1 602 cm1 rb1
  exact iterate_chunk insStep 397 603 t2 cm2

/-- The concrete scenario of the spec, end to end, for any hash function:
after phases 1 and 2 the map holds 400 alive among 1000 used entries at
capacity 3203, and after the 1000 further fresh inserts of phase 3 it holds
1400 alive entries with the capacity still 3203. -/
theorem c5_scenario (hash : Nat → Nat) :
    ∃ m2 m4, c5Mid hash = some m2 ∧
      m2.number_alive = 400 ∧ m2.number_used = 1000 ∧
      OpenAddressingMap.capacity m2 = 3203 ∧
      c5Final hash = some m4 ∧ m4.number_alive = 1400 ∧
      OpenAddressingMap.capacity m4 = 3203 := by
  have hI0 : OpenAddressingMap.Inv hash (OpenAddressingMap.new : OpenAddressingMap Nat Nat) :=
    OpenAddressingMap.Inv_with_capacity hash 4
  have hfresh1 : ∀ kv ∈ (List.range 1000).map (fun i => (i, i * i)),
      OpenAddressingMap.get hash (OpenAddressingMap.new : OpenAddressingMap Nat Nat) kv.1
        = none :=
    fun kv _ => OpenAddressingMap.get_with_capacity_none hash 4 kv.1
  have hnodup1 : (((List.range 1000).map (fun i : Nat => (i, i * i))).map Prod.fst).Nodup := by
    rw [List.map_map]
    simpa [Function.comp] using List.nodup_range 1000
  rcases OpenAddressingMap.insertSeq_spec hash false id
      ((List.range 1000).map (fun i => (i, i * i))) OpenAddressingMap.new hI0 hfresh1 hnodup1
    with ⟨m1, hseq1, hI1, hga1, hgb1, hcnt1⟩
  have hc1 : (m1.number_alive, m1.number_used, OpenAddressingMap.capacity m1)
      = ((1000 : Nat), 1000, 3203) := by
    rw [hcnt1]
    have hlen1 : ((List.range 1000).map (fun i : Nat => (i, i * i))).length = 1000 := by simp
    rw [hlen1]
    have htup : ((OpenAddressingMap.new : OpenAddressingMap Nat Nat).number_alive,
        (OpenAddressingMap.new : OpenAddressingMap Nat Nat).number_used,
        OpenAddressingMap.capacity (OpenAddressingMap.new : OpenAddressingMap Nat Nat))
        = ((0 : Nat), (0 : Nat), (5 : Nat)) := by decide
    rw [htup]
    exact c5_trace1
  rw [Prod.mk.injEq, Prod.mk.injEq] at hc1
  obtain ⟨ha1v, hu1v, hcap1⟩ := hc1
  have hnodup600 : (List.range 600).Nodup := List.nodup_range 600
  have hpres2 : ∀ k2 ∈ List.range 600, (OpenAddressingMap.get hash m1 k2).isSome = true := by
    intro k2 h2
    have hk2 : k2 < 600 := List.mem_range.mp h2
    have hmem : (k2, k2 * k2) ∈ (List.range 1000).map (fun i => (i, i * i)) :=
      List.mem_map.mpr ⟨k2, List.mem_range.mpr (by omega), rfl⟩
    have h3 : OpenAddressingMap.get hash m1 k2 = some (k2 * k2) := hga1 (k2, k2 * k2) hmem
    rw [h3]
    rfl
  rcases OpenAddressingMap.removeSeq_spec hash (List.range 600) m1 hI1 hnodup600 hpres2
    with ⟨hI2, ha2, hu2, hc2, hg2none, hg2other⟩
  have ha2v : (OpenAddressingMap.removeSeq hash m1 (List.range 600)).number_alive = 400 := by
    rw [List.length_range] at ha2
    omega
  have hfresh3 : ∀ kv ∈ (List.range 1000).map (fun i => (10000 + i, i * i)),
      OpenAddressingMap.get hash (OpenAddressingMap.removeSeq hash m1 (List.range 600)) kv.1
        = none := by
    intro kv hkv
    rcases List.mem_map.mp hkv with ⟨i, hi, hkvi⟩
    have hi1000 : i < 1000 := List.mem_range.mp hi
    subst hkvi
    show OpenAddressingMap.get hash (OpenAddressingMap.removeSeq hash m1 (List.range 600))
      (10000 + i) = none
    have hnotin600 : (10000 + i : Nat) ∉ List.range 600 := by
      intro h
      have := List.mem_range.mp h
      omega
    rw [hg2other _ hnotin600]
    rw [hgb1 (10000 + i) ?_]
    · exact OpenAddressingMap.get_with_capacity_none hash 4 _
    · intro kv2 h2 he
      rcases List.mem_map.mp h2 with ⟨j, hj, hkvj⟩
      have hj1000 : j < 1000 := List.mem_range.mp hj
      rw [← hkvj] at he
      have hje : j = 10000 + i := he
      omega
  have hnodup3 :
      (((List.range 1000).map (fun i : Nat => (10000 + i, i * i))).map Prod.fst).Nodup := by
    rw [List.map_map]
    have hco : (Prod.fst ∘ fun i : Nat => (10000 + i, i * i)) = fun i : Nat => 10000 + i := rfl
    rw [hco]
    exact List.Nodup.map (fun a b h => by omega) (List.nodup_range 1000)
  rcases OpenAddressingMap.insertSeq_spec hash false id
      ((List.range 1000).map (fun i => (10000 + i, i * i)))
      (OpenAddressingMap.removeSeq hash m1 (List.range 600)) hI2 hfresh3 hnodup3
    with ⟨m4, hseq3, hI4, -, -, hcnt3⟩
  have hc4 : (m4.number_alive, m4.number_used, OpenAddressingMap.capacity m4)
      = ((1400 : Nat), 1400, 3203) := by
    rw [hcnt3]
    have hlen3 : ((List.range 1000).map (fun i : Nat => (10000 + i, i * i))).length = 1000 := by
      simp
    rw [hlen3]
    have htup2 : ((OpenAddressingMap.removeSeq hash m1 (List.range 600)).number_alive,
        (OpenAddressingMap.removeSeq hash m1 (List.range 600)).number_used,
        OpenAddressingMap.capacity (OpenAddressingMap.removeSeq hash m1 (List.range 600)))
        = ((400 : Nat), (1000 : Nat), (3203 : Nat)) := by
      rw [ha2v, hu2, hu1v, hc2, hcap1]
    rw [htup2]
    exact c5_trace3
  rw [Prod.mk.injEq, Prod.mk.injEq] at hc4
  obtain ⟨ha4, hu4, hcap4⟩ := hc4
  refine ⟨OpenAddressingMap.removeSeq hash m1 (List.range 600), m4, ?_, ha2v,
    by rw [hu2, hu1v], by rw [hc2, hcap1], ?_, ha4, hcap4⟩
  · unfold c5Mid
    rw [hseq1]
    rfl
  · unfold c5Final c5Mid
    rw [hseq1]
    simp only [Option.map_some', Option.some_bind]
    exact hseq3

/-- Compacting and then decompacting an entry list with a droppable value type
rewrites each alive payload value by the decompact of its compact. -/
theorem pairs_map_compose {K V : Type} (c d : V → V) :
    ∀ (l : List (Entry K V)),
      ((l.map (Entry.compact true c)).map (Entry.decompact true d)).filterMap Entry.inner
        = (l.filterMap Entry.inner).map (fun kv => (kv.1, d (c kv.2))) := by
  intro l
  induction l with
  | nil => rfl
  | cons e l ih =>
    cases he : e.inner with
    | none =>
      have h1 : (Entry.decompact true d (Entry.compact true c e)).inner = none := by
        unfold Entry.compact Entry.decompact
        rw [he]
        rfl
      simp only [List.map_cons, List.filterMap_cons, h1, he, ih]
    | some kv =>
      have h1 : (Entry.decompact true d (Entry.compact true c e)).inner
          = some (kv.1, d (c kv.2)) := by
        unfold Entry.compact Entry.decompact
        rw [he]
        rfl
      simp only [List.map_cons, List.filterMap_cons, h1, he, ih]

/-- Under an invariant-respecting map, specLookup is the match on the shared
stop search of the probe loop. -/
theorem specLookup_stop {K V : Type} [DecidableEq K] (hash : K → Nat)
    (m : OpenAddressingMap K V) (k : K) :
    OpenAddressingMap.specLookup hash m k =
      match OpenAddressingMap.insert_stop hash m k with
      | none => none
      | some i =>
        if (OpenAddressingMap.entryAt m
            (probeIdx (hash k) (OpenAddressingMap.capacity m) i)).free = true then none
        else (OpenAddressingMap.entryAt m
            (probeIdx (hash k) (OpenAddressingMap.capacity m) i)).inner.map Prod.snd := rfl

open OpenAddressingMap

/-- C1: round-trip law. Compacting a vector or a map into fresh compact storage
and decompacting it back is observationally the identity: a plain vector keeps
its element sequence, a nested vector of vectors keeps the element sequences of
its elements, a map with non-droppable values keeps its exact key/value pair
list and both counters, and a map whose values are CompactVecs keeps the
observable pairs (key and element sequence of the value) and both counters. -/
theorem c1 :
    (∀ (α : Type) (cE dE : α → α) (v : CompactVec α),
      (CompactVec.decompact false dE (CompactVec.compact false cE v)).elems = v.elems) ∧
    (∀ (α : Type) (cI dI : α → α) (v : CompactVec (CompactVec α)),
      ((CompactVec.decompact true (CompactVec.decompact false dI)
          (CompactVec.compact true (CompactVec.compact false cI) v)).elems.map
        CompactVec.elems) = v.elems.map CompactVec.elems) ∧
    (∀ (K V : Type) (cV dV : V → V) (m : OpenAddressingMap K V),
      pairsList (OpenAddressingMap.decompact false dV
          (OpenAddressingMap.compact false cV m)) = pairsList m ∧
      (OpenAddressingMap.decompact false dV
          (OpenAddressingMap.compact false cV m)).number_alive = m.number_alive ∧
      (OpenAddressingMap.decompact false dV
          (OpenAddressingMap.compact false cV m)).number_used = m.number_used) ∧
    (∀ (K I : Type) (cI dI : I → I) (m : OpenAddressingMap K (CompactVec I)),
      (pairsList (OpenAddressingMap.decompact true (CompactVec.decompact false dI)
          (OpenAddressingMap.compact true (CompactVec.compact false cI) m))).map
        (fun kv => (kv.1, kv.2.elems))
        = (pairsList m).map (fun kv => (kv.1, kv.2.elems)) ∧
      (OpenAddressingMap.decompact true (CompactVec.decompact false dI)
          (OpenAddressingMap.compact true (CompactVec.compact false cI) m)).number_alive
        = m.number_alive ∧
      (OpenAddressingMap.decompact true (CompactVec.decompact false dI)
          (OpenAddressingMap.compact true (CompactVec.compact false cI) m)).number_used
        = m.number_used) := by
  refine ⟨fun α cE dE v => rfl, ?_, fun K V cV dV m => ⟨rfl, rfl, rfl⟩, ?_⟩
  · intro α cI dI v
    show ((v.elems.map (CompactVec.compact false cI)).map
        (CompactVec.decompact false dI)).map CompactVec.elems
      = v.elems.map CompactVec.elems
    rw [List.map_map, List.map_map]
    exact List.map_congr_left (fun x _ => rfl)
  · intro K I cI dI m
    refine ⟨?_, rfl, rfl⟩
    show (((m.entries.elems.map (Entry.compact true (CompactVec.compact false cI))).map
        (Entry.decompact true (CompactVec.decompact false dI))).filterMap Entry.inner).map
        (fun kv => (kv.1, kv.2.elems))
      = (m.entries.elems.filterMap Entry.inner).map (fun kv => (kv.1, kv.2.elems))
    rw [pairs_map_compose]
    rw [List.map_map]
    exact List.map_congr_left (fun kv _ => rfl)

/-- C3 counterexample: the claimed property fails. For the prime bucket count
N = 3 and hash 0, the probe sequence (0 + i*i) mod 3 for i = 0, 1, 2 takes only
the values 0 and 1: the slot 2 is never visited, so the probe sequence does not
visit all N slots. -/
theorem c3_counterexample :
    Nat.Prime 3 ∧ (2 : Nat) < 3 ∧ ∀ i, i < 3 → probeIdx 0 3 i ≠ 2 :=
  ⟨by norm_num, by norm_num, by decide⟩

/-- C3 (amended): over a prime bucket count N the probe sequence
(h + i*i) mod N is injective on the indices i ≤ N/2, so the first
⌊N/2⌋ + 1 probes visit pairwise distinct slots; this — not full coverage,
which fails — is the property the design's used ≤ cap/2 load bound relies
on to reach a free slot. -/
theorem c3 (N h i j : Nat) (hp : Nat.Prime N) (hi : i ≤ N / 2) (hj : j ≤ N / 2)
    (hij : i ≠ j) : probeIdx h N i ≠ probeIdx h N j :=
  fun he => hij (probe_inj hp h hi hj he)

/-- C3 witness: the amended theorem at N = 5, h = 0, i = 1, j = 2. -/
theorem c3_witness :
    Nat.Prime 5 ∧ (1 : Nat) ≤ 5 / 2 ∧ (2 : Nat) ≤ 5 / 2 ∧ (1 : Nat) ≠ 2 ∧
      probeIdx 0 5 1 ≠ probeIdx 0 5 2 :=
  ⟨by norm_num, by norm_num, by norm_num, by norm_num,
    c3 5 0 1 2 (by norm_num) (by norm_num) (by norm_num) (by norm_num)⟩

/-- C9: CompactVec::push_at ignores its position argument entirely: it equals
push on every vector state, position and value, and push appends the value at
the end, after growing through double_buf exactly when len = cap. -/
theorem c9 :
    (∀ (α : Type) (dElem : α → α) (v : CompactVec α) (i : Nat) (x : α),
      CompactVec.push_at dElem v i x = CompactVec.push dElem v x) ∧
    (∀ (α : Type) (dElem : α → α) (v : CompactVec α) (x : α),
      (CompactVec.push dElem v x).elems =
        (if v.elems.length = v.cap then (CompactVec.double_buf dElem v).elems
         else v.elems) ++ [x]) := by
  constructor
  · intro α dElem v i x
    rfl
  · intro α dElem v x
    show ((if v.elems.length = v.cap then CompactVec.double_buf dElem v else v).elems ++ [x])
      = (if v.elems.length = v.cap then (CompactVec.double_buf dElem v).elems
         else v.elems) ++ [x]
    by_cases h : v.elems.length = v.cap
    · rw [if_pos h, if_pos h]
    · rw [if_neg h, if_neg h]

/-- C10: CompactVec::new yields a null pointer in compact mode, so it reports
is_still_compact = true with no enclosing compact region (its empty element
list is vacuously compact); CompactVec::with_capacity n, for every n including
0, immediately allocates and sets the pointer to free mode, so it reports
is_still_compact = false. -/
theorem c10 :
    (∀ (α : Type), (CompactVec.new : CompactVec α).ptr.isNull = true ∧
      (CompactVec.new : CompactVec α).ptr.mode = PtrMode.compact) ∧
    (∀ (α : Type) (needsDropT : Bool) (elemCompact : α → Bool),
      CompactVec.is_still_compact needsDropT elemCompact (CompactVec.new : CompactVec α)
        = true) ∧
    (∀ (α : Type) (n : Nat),
      (CompactVec.with_capacity n : CompactVec α).ptr.mode = PtrMode.free ∧
      (CompactVec.with_capacity n : CompactVec α).ptr.isNull = false) ∧
    (∀ (α : Type) (needsDropT : Bool) (elemCompact : α → Bool) (n : Nat),
      CompactVec.is_still_compact needsDropT elemCompact
        (CompactVec.with_capacity n : CompactVec α) = false) := by
  refine ⟨fun α => ⟨rfl, rfl⟩, ?_, fun α n => ⟨rfl, rfl⟩, ?_⟩
  · intro α nd p
    cases nd
    · rfl
    · rfl
  · intro α nd p n
    cases nd
    · rfl
    · rfl

/-- C2: on every map state reachable from new() or with_capacity(n) by insert,
remove and push_at, insert and push_at never hit the probe-exhaustion panic
branch (they always return a result), and immediately before the placement —
after ensure_capacity — at most half the slots are used, so the probe walk
stops within capacity steps at a free slot or a matching alive entry. -/
theorem c2 {K I : Type} [DecidableEq K] (hash : K → Nat) (needsDropV : Bool)
    (dV : CompactVec I → CompactVec I) (dI : I → I) {m : OpenAddressingMap K (CompactVec I)}
    (hR : Reachable hash needsDropV dV dI m) :
    (∀ k v, (insert hash needsDropV dV m k v).isSome = true) ∧
    (∀ k item, (push_at hash needsDropV dV dI m k item).isSome = true) ∧
    (∃ m1, ensure_capacity hash needsDropV dV m = some m1 ∧
      m1.number_used ≤ capacity m1 / 2 ∧
      ∀ k, ∃ s, insert_stop hash m1 k = some s ∧ s < capacity m1 ∧
        ((entryAt m1 (probeIdx (hash k) (capacity m1) s)).free = true ∨
         (entryAt m1 (probeIdx (hash k) (capacity m1) s)).is_this k = true)) := by
  have hI := Reachable_Inv hash needsDropV dV dI hR
  refine ⟨?_, ?_, ?_⟩
  · intro k v
    rcases insert_spec hash needsDropV dV hI k v with ⟨m1, he, -, -, -, -, -, -, -⟩
    rw [he]
    rfl
  · intro k item
    rcases push_at_spec hash needsDropV dV dI hI k item with ⟨m1, he, -⟩
    rw [he]
    rfl
  · rcases ensure_capacityGo_spec hash needsDropV dV (countAlive m.entries.elems + 1) hI
      (by omega) with ⟨m1, he, hI1, hload, -, -, -, -⟩
    refine ⟨m1, he, hload, ?_⟩
    intro k
    rcases insert_stop_isSome hash hI1 k hload with ⟨s, hs, hslt, hsor, -⟩
    exact ⟨s, hs, hslt, hsor⟩

/-- C2 witness: the theorem at the reachable state with_capacity 4 over Nat
keys, vector values and the identity hash. -/
theorem c2_witness :
    (∀ k v, (insert (fun n : Nat => n) false id
        (with_capacity 4 : OpenAddressingMap Nat (CompactVec Nat)) k v).isSome = true) ∧
    (∀ k item, (push_at (fun n : Nat => n) false id id
        (with_capacity 4 : OpenAddressingMap Nat (CompactVec Nat)) k item).isSome = true) ∧
    (∃ m1, ensure_capacity (fun n : Nat => n) false id
        (with_capacity 4 : OpenAddressingMap Nat (CompactVec Nat)) = some m1 ∧
      m1.number_used ≤ capacity m1 / 2 ∧
      ∀ k, ∃ s, insert_stop (fun n : Nat => n) m1 k = some s ∧ s < capacity m1 ∧
        ((entryAt m1 (probeIdx k (capacity m1) s)).free = true ∨
         (entryAt m1 (probeIdx k (capacity m1) s)).is_this k = true)) :=
  c2 (fun n : Nat => n) false id id (Reachable.base 4)

/-- C4: the map state invariant on every reachable state: number_alive ≤
number_used ≤ capacity and the capacity is prime; and immediately after any
insert, number_used ≤ capacity/2 + 1 and the same bounds and primality hold
again. -/
theorem c4 {K I : Type} [DecidableEq K] (hash : K → Nat) (needsDropV : Bool)
    (dV : CompactVec I → CompactVec I) (dI : I → I) {m : OpenAddressingMap K (CompactVec I)}
    (hR : Reachable hash needsDropV dV dI m) :
    m.number_alive ≤ m.number_used ∧ m.number_used ≤ capacity m ∧
    Nat.Prime (capacity m) ∧
    ∀ k v r m1, insert hash needsDropV dV m k v = some (r, m1) →
      m1.number_used ≤ capacity m1 / 2 + 1 ∧ Nat.Prime (capacity m1) ∧
      m1.number_alive ≤ m1.number_used ∧ m1.number_used ≤ capacity m1 := by
  have hI := Reachable_Inv hash needsDropV dV dI hR
  have hmain : ∀ {m2 : OpenAddressingMap K (CompactVec I)}, Inv hash m2 →
      m2.number_alive ≤ m2.number_used ∧ m2.number_used ≤ capacity m2 := by
    intro m2 hI2
    constructor
    · rw [hI2.alive_eq, hI2.used_eq]
      exact countAlive_le_countUsed _
    · rw [hI2.used_eq, ← hI2.len_eq]
      exact List.countP_le_length _
  refine ⟨(hmain hI).1, (hmain hI).2, hI.cap_prime, ?_⟩
  intro k v r m1 hins
  rcases insert_spec hash needsDropV dV hI k v with ⟨m1c, he, hI1, -, -, -, -, -, hbound⟩
  rw [hins] at he
  injection he with he
  injection he with he1 he2
  subst he2
  exact ⟨hbound, hI1.cap_prime, (hmain hI1).1, (hmain hI1).2⟩

/-- C4 witness: the theorem at the reachable state with_capacity 4 over Nat
keys, vector values and the identity hash. -/
theorem c4_witness :
    (with_capacity 4 : OpenAddressingMap Nat (CompactVec Nat)).number_alive ≤
      (with_capacity 4 : OpenAddressingMap Nat (CompactVec Nat)).number_used ∧
    (with_capacity 4 : OpenAddressingMap Nat (CompactVec Nat)).number_used ≤
      capacity (with_capacity 4 : OpenAddressingMap Nat (CompactVec Nat)) ∧
    Nat.Prime (capacity (with_capacity 4 : OpenAddressingMap Nat (CompactVec Nat))) ∧
    ∀ k v r m1, insert (fun n : Nat => n) false id
        (with_capacity 4 : OpenAddressingMap Nat (CompactVec Nat)) k v = some (r, m1) →
      m1.number_used ≤ capacity m1 / 2 + 1 ∧ Nat.Prime (capacity m1) ∧
      m1.number_alive ≤ m1.number_used ∧ m1.number_used ≤ capacity m1 :=
  c4 (fun n : Nat => n) false id id (Reachable.base 4)

/-- C5: the growth heuristic. On every invariant-respecting map,
ensure_capacity keeps number_alive and all lookups; when number_used >
capacity/2 it rebuilds at find_next_prime of (capacity if capacity -
number_alive > capacity/2, else capacity * 2), re-inserting only the alive
entries so number_used compacts down to number_alive; otherwise it leaves
counters and capacity alone. Concretely, for any hash: after inserting keys
0..1000 with value i*i from new() and removing keys 0..600, 400 alive among
1000 used entries remain at capacity 3203, and after 1000 further fresh
inserts the map holds 1400 alive entries with the capacity still 3203
(rehash in place, no doubling). -/
theorem c5 :
    (∀ (K V : Type) [DecidableEq K] (hash : K → Nat) (needsDropV : Bool) (dV : V → V)
      (m : OpenAddressingMap K V), Inv hash m →
      ∃ m1, ensure_capacity hash needsDropV dV m = some m1 ∧
        m1.number_alive = m.number_alive ∧
        (∀ k2, get hash m1 k2 = get hash m k2) ∧
        m1.number_used = (if m.number_used > capacity m / 2 then m.number_alive
          else m.number_used) ∧
        capacity m1 = (if m.number_used > capacity m / 2 then
          find_next_prime (if capacity m - m.number_alive > capacity m / 2 then capacity m
            else capacity m * 2) else capacity m)) ∧
    (∀ hash : Nat → Nat, ∃ m2 m4, c5Mid hash = some m2 ∧
      m2.number_alive = 400 ∧ m2.number_used = 1000 ∧ capacity m2 = 3203 ∧
      c5Final hash = some m4 ∧ m4.number_alive = 1400 ∧ capacity m4 = 3203) := by
  constructor
  · intro K V _inst hash needsDropV dV m hI
    rcases ensure_capacityGo_spec hash needsDropV dV (countAlive m.entries.elems + 1) hI
      (by omega) with ⟨m1, he, -, -, hg, ha, hu, hc⟩
    exact ⟨m1, he, ha, hg, hu, hc⟩
  · exact c5_scenario

/-- C6: insert mechanics on every map and key. The probe walk of hash(k) stops
at the first free or matching slot; every slot it skipped was used and not this
key (tombstoned or alive with another key). If the stop slot is free, a new
alive entry with the cached hash is placed there and both counters are bumped,
returning absent; if it is an alive entry with key k, only the value is
overwritten (hash and tombstone flag kept), the prior value is returned, and
the counters are untouched. A fresh placement only ever happens on a free —
hence non-tombstoned — slot: a tombstoned slot is never reused. -/
theorem c6 {K V : Type} [DecidableEq K] (hash : K → Nat) (m : OpenAddressingMap K V)
    (k : K) (v : V) {s : Nat} (hs : insert_stop hash m k = some s) :
    (∀ t, t < s → (entryAt m (probeIdx (hash k) (capacity m) t)).used = true ∧
        (entryAt m (probeIdx (hash k) (capacity m) t)).is_this k = false) ∧
    ((entryAt m (probeIdx (hash k) (capacity m) s)).free = true →
      insert_inner hash m k v = some (none,
        ⟨m.number_alive + 1, m.number_used + 1,
          ⟨m.entries.ptr,
            m.entries.elems.set (probeIdx (hash k) (capacity m) s)
              ⟨hash k, false, some (k, v)⟩,
            m.entries.cap⟩⟩)) ∧
    ((entryAt m (probeIdx (hash k) (capacity m) s)).is_this k = true →
      ∃ vold, (entryAt m (probeIdx (hash k) (capacity m) s)).inner = some (k, vold) ∧
        insert_inner hash m k v = some (some vold,
          ⟨m.number_alive, m.number_used,
            ⟨m.entries.ptr,
              m.entries.elems.set (probeIdx (hash k) (capacity m) s)
                ⟨(entryAt m (probeIdx (hash k) (capacity m) s)).hash,
                 (entryAt m (probeIdx (hash k) (capacity m) s)).tombstoned,
                 some (k, v)⟩,
              m.entries.cap⟩⟩)) ∧
    (∀ m1, insert_inner hash m k v = some (none, m1) →
      (entryAt m (probeIdx (hash k) (capacity m) s)).tombstoned = false ∧
      (entryAt m (probeIdx (hash k) (capacity m) s)).used = false) := by
  rcases firstFrom_eq_some.mp hs with ⟨-, hslt, hsp, hsmin⟩
  rw [Nat.zero_add] at hslt
  have hover : (entryAt m (probeIdx (hash k) (capacity m) s)).is_this k = true →
      ∃ vold, (entryAt m (probeIdx (hash k) (capacity m) s)).inner = some (k, vold) ∧
        insert_inner hash m k v = some (some vold,
          ⟨m.number_alive, m.number_used,
            ⟨m.entries.ptr,
              m.entries.elems.set (probeIdx (hash k) (capacity m) s)
                ⟨(entryAt m (probeIdx (hash k) (capacity m) s)).hash,
                 (entryAt m (probeIdx (hash k) (capacity m) s)).tombstoned,
                 some (k, v)⟩,
              m.entries.cap⟩⟩) := by
    intro hthis
    rcases hE : entryAt m (probeIdx (hash k) (capacity m) s) with ⟨eh, et, einn⟩
    rw [hE] at hthis
    rcases Entry.is_this_iff.mp hthis with ⟨vold, hvold⟩
    have hinn : einn = some (k, vold) := hvold
    subst hinn
    refine ⟨vold, rfl, ?_⟩
    have h1 : insert_inner_inner hash m k v = some (some vold,
        setEntry m (probeIdx (hash k) (capacity m) s) ⟨eh, et, some (k, v)⟩) := by
      unfold insert_inner_inner
      rw [hs]
      show (if (entryAt m (probeIdx (hash k) (capacity m) s)).free = true
        then some ((none : Option V), setEntry m (probeIdx (hash k) (capacity m) s)
          ((entryAt m (probeIdx (hash k) (capacity m) s)).make_used (hash k) k v))
        else some ((((entryAt m (probeIdx (hash k) (capacity m) s)).replace_value v).1),
          setEntry m (probeIdx (hash k) (capacity m) s)
            (((entryAt m (probeIdx (hash k) (capacity m) s)).replace_value v).2))) = _
      rw [hE]
      rw [if_neg (show ¬ Entry.free (⟨eh, et, some (k, vold)⟩ : Entry K V) = true from by
        simp [Entry.free])]
      rfl
    unfold insert_inner
    rw [h1]
    rfl
  refine ⟨?_, ?_, hover, ?_⟩
  · intro t ht
    have h2 : ((entryAt m (probeIdx (hash k) (capacity m) t)).free ||
        (entryAt m (probeIdx (hash k) (capacity m) t)).is_this k) = false :=
      hsmin t (Nat.zero_le _) ht
    constructor
    · cases hu : (entryAt m (probeIdx (hash k) (capacity m) t)).used
      · exfalso
        rw [Entry.free_eq_not_used, hu] at h2
        simp only [Bool.not_false, Bool.true_or] at h2
        exact Bool.noConfusion h2
      · rfl
    · exact (Bool.or_eq_false_iff.mp h2).2
  · intro hfree
    rcases hE : entryAt m (probeIdx (hash k) (capacity m) s) with ⟨eh, et, einn⟩
    rw [hE] at hfree
    have hinn : einn = none := (Entry.free_iff.mp hfree).1
    have htomb : et = false := (Entry.free_iff.mp hfree).2
    subst hinn
    subst htomb
    have h1 : insert_inner_inner hash m k v = some (none,
        setEntry m (probeIdx (hash k) (capacity m) s) ⟨hash k, false, some (k, v)⟩) := by
      unfold insert_inner_inner
      rw [hs]
      show (if (entryAt m (probeIdx (hash k) (capacity m) s)).free = true
        then some ((none : Option V), setEntry m (probeIdx (hash k) (capacity m) s)
          ((entryAt m (probeIdx (hash k) (capacity m) s)).make_used (hash k) k v))
        else some ((((entryAt m (probeIdx (hash k) (capacity m) s)).replace_value v).1),
          setEntry m (probeIdx (hash k) (capacity m) s)
            (((entryAt m (probeIdx (hash k) (capacity m) s)).replace_value v).2))) = _
      rw [hE]
      rw [if_pos (show Entry.free (⟨eh, false, none⟩ : Entry K V) = true from rfl)]
      rfl
    unfold insert_inner
    rw [h1]
    rfl
  · intro m1 hii
    by_cases hfree : (entryAt m (probeIdx (hash k) (capacity m) s)).free = true
    · exact ⟨(Entry.free_iff.mp hfree).2, Entry.used_false_of_free hfree⟩
    · exfalso
      have hsp2 : ((entryAt m (probeIdx (hash k) (capacity m) s)).free ||
          (entryAt m (probeIdx (hash k) (capacity m) s)).is_this k) = true := hsp
      have hthis : (entryAt m (probeIdx (hash k) (capacity m) s)).is_this k = true := by
        cases hfb : (entryAt m (probeIdx (hash k) (capacity m) s)).free
        · rw [hfb] at hsp2
          simpa using hsp2
        · exact absurd hfb hfree
      rcases hover hthis with ⟨vold, -, heq⟩
      rw [heq] at hii
      injection hii with hii
      injection hii with hii1 hii2
      exact Option.noConfusion hii1

/-- C6 witness: the theorem at the empty map with_capacity 4, identity hash,
key 0 and value 7: the walk stops at step 0 on a free slot and the
placement equation holds there. -/
theorem c6_witness :
    insert_stop (fun n : Nat => n) (with_capacity 4 : OpenAddressingMap Nat Nat) 0
      = some 0 ∧
    insert_inner (fun n : Nat => n) (with_capacity 4 : OpenAddressingMap Nat Nat) 0 7
      = some (none,
        ⟨1, 1, ⟨(with_capacity 4 : OpenAddressingMap Nat Nat).entries.ptr,
          (with_capacity 4 : OpenAddressingMap Nat Nat).entries.elems.set
            (probeIdx 0 (capacity (with_capacity 4 : OpenAddressingMap Nat Nat)) 0)
            ⟨0, false, some (0, 7)⟩,
          (with_capacity 4 : OpenAddressingMap Nat Nat).entries.cap⟩⟩) :=
  ⟨by decide,
    (c6 (fun n : Nat => n) (with_capacity 4) 0 7
      (show insert_stop (fun n : Nat => n) (with_capacity 4 : OpenAddressingMap Nat Nat) 0
        = some 0 by decide)).2.1 (by decide)⟩

/-- C7: remove mechanics on every map. A probe miss returns absent and leaves
the map exactly unchanged; a hit at step s returns the prior value, clears the
payload and sets the tombstone flag of that one entry, decrements number_alive
and keeps number_used. And on every reachable map, a get of the removed key
immediately after remove is absent. -/
theorem c7 :
    (∀ (K V : Type) [DecidableEq K] (hash : K → Nat) (m : OpenAddressingMap K V)
      (k : K),
      (firstFrom (fun i => (entryAt m (probeIdx (hash k) (capacity m) i)).is_this k) 0
          (capacity m) = none →
        remove hash m k = (none, m)) ∧
      (∀ s, firstFrom (fun i => (entryAt m (probeIdx (hash k) (capacity m) i)).is_this k) 0
          (capacity m) = some s →
        ∃ vold, (entryAt m (probeIdx (hash k) (capacity m) s)).inner = some (k, vold) ∧
          remove hash m k = (some vold,
            ⟨m.number_alive - 1, m.number_used,
              ⟨m.entries.ptr,
                m.entries.elems.set (probeIdx (hash k) (capacity m) s)
                  ⟨(entryAt m (probeIdx (hash k) (capacity m) s)).hash, true, none⟩,
                m.entries.cap⟩⟩))) ∧
    (∀ (K I : Type) [DecidableEq K] (hash : K → Nat) (needsDropV : Bool)
      (dV : CompactVec I → CompactVec I) (dI : I → I)
      (m : OpenAddressingMap K (CompactVec I)),
      Reachable hash needsDropV dV dI m →
      ∀ k, OpenAddressingMap.get hash (remove hash m k).2 k = none) := by
  constructor
  · intro K V _inst hash m k
    constructor
    · intro hf
      unfold remove remove_inner_inner
      rw [hf]
    · intro s hf
      rcases firstFrom_eq_some.mp hf with ⟨-, hslt, hsp, -⟩
      rcases hE : entryAt m (probeIdx (hash k) (capacity m) s) with ⟨eh, et, einn⟩
      rw [hE] at hsp
      rcases Entry.is_this_iff.mp hsp with ⟨vold, hvold⟩
      have hinn : einn = some (k, vold) := hvold
      subst hinn
      refine ⟨vold, rfl, ?_⟩
      have h1 : remove_inner_inner hash m k = (some vold,
          setEntry m (probeIdx (hash k) (capacity m) s) ⟨eh, true, none⟩) := by
        unfold remove_inner_inner
        rw [hf]
        show (((entryAt m (probeIdx (hash k) (capacity m) s)).remove).1,
          setEntry m (probeIdx (hash k) (capacity m) s)
            ((entryAt m (probeIdx (hash k) (capacity m) s)).remove).2) = _
        rw [hE]
        rfl
      unfold remove
      rw [h1]
      rfl
  · intro K I _inst hash needsDropV dV dI m hR k
    have hI := Reachable_Inv hash needsDropV dV dI hR
    rcases remove_spec hash hI k with ⟨m1, heq, -, -, -, hgnone, -, -, -⟩
    rw [heq]
    exact hgnone

/-- C7 witness: remove of an absent key on the empty map with_capacity 4 is a
miss that leaves the map unchanged, and get after remove is absent on a
reachable map. -/
theorem c7_witness :
    remove (fun n : Nat => n) (with_capacity 4 : OpenAddressingMap Nat Nat) 0
      = (none, with_capacity 4) ∧
    OpenAddressingMap.get (fun n : Nat => n)
      (remove (fun n : Nat => n)
        (with_capacity 4 : OpenAddressingMap Nat (CompactVec Nat)) 0).2 0 = none :=
  ⟨(c7.1 Nat Nat (fun n : Nat => n) (with_capacity 4) 0).1 (by decide),
   c7.2 Nat Nat (fun n : Nat => n) false id id (with_capacity 4) (Reachable.base 4) 0⟩

/-- C8: on every reachable map state, get (and contains_key) agrees with the
spec's reference lookup specLookup, which walks the probe sequence and stops
with a miss at the first free slot, stops with a hit at an alive entry with
this key, skips tombstoned and other-keyed alive slots, and misses after
exhausting cap probes. -/
theorem c8 {K I : Type} [DecidableEq K] (hash : K → Nat) (needsDropV : Bool)
    (dV : CompactVec I → CompactVec I) (dI : I → I) {m : OpenAddressingMap K (CompactVec I)}
    (hR : Reachable hash needsDropV dV dI m) (k : K) :
    get hash m k = specLookup hash m k ∧
    contains_key hash m k = (specLookup hash m k).isSome := by
  have hI := Reachable_Inv hash needsDropV dV dI hR
  suffices hg : get hash m k = specLookup hash m k by
    refine ⟨hg, ?_⟩
    unfold contains_key
    rw [hg]
  cases hfs : insert_stop hash m k with
  | none =>
    rw [specLookup_stop hash m k, hfs]
    have hnone : find_used_idx hash m k = none := by
      apply firstFrom_eq_none.mpr
      intro t ht1 ht2
      have h2 : ((entryAt m (probeIdx (hash k) (capacity m) t)).free ||
          (entryAt m (probeIdx (hash k) (capacity m) t)).is_this k) = false :=
        firstFrom_eq_none.mp hfs t ht1 ht2
      exact (Bool.or_eq_false_iff.mp h2).2
    unfold OpenAddressingMap.get
    rw [hnone]
  | some s =>
    rcases firstFrom_eq_some.mp hfs with ⟨-, hslt, hsp, hsmin⟩
    rw [Nat.zero_add] at hslt
    have hsp2 : ((entryAt m (probeIdx (hash k) (capacity m) s)).free ||
        (entryAt m (probeIdx (hash k) (capacity m) s)).is_this k) = true := hsp
    by_cases hfree : (entryAt m (probeIdx (hash k) (capacity m) s)).free = true
    · have hget : get hash m k = none := by
        apply (get_eq_none_iff hash hI).mpr
        exact no_key_of_stop_free hash hI hfs hfree
      rw [specLookup_stop hash m k, hfs]
      show get hash m k = if (entryAt m (probeIdx (hash k) (capacity m) s)).free = true
        then none else (entryAt m (probeIdx (hash k) (capacity m) s)).inner.map Prod.snd
      rw [if_pos hfree, hget]
    · have hthis : (entryAt m (probeIdx (hash k) (capacity m) s)).is_this k = true := by
        cases hfb : (entryAt m (probeIdx (hash k) (capacity m) s)).free
        · rw [hfb] at hsp2
          simpa using hsp2
        · exact absurd hfb hfree
      have hfu : find_used_idx hash m k = some s := by
        apply firstFrom_eq_some.mpr
        refine ⟨Nat.zero_le _, by omega, hthis, ?_⟩
        intro t ht1 ht2
        have h2 : ((entryAt m (probeIdx (hash k) (capacity m) t)).free ||
            (entryAt m (probeIdx (hash k) (capacity m) t)).is_this k) = false :=
          hsmin t ht1 ht2
        exact (Bool.or_eq_false_iff.mp h2).2
      have hgeq : get hash m k =
          (entryAt m (probeIdx (hash k) (capacity m) s)).inner.map Prod.snd := by
        unfold OpenAddressingMap.get
        rw [hfu]
      rw [specLookup_stop hash m k, hfs]
      show get hash m k = if (entryAt m (probeIdx (hash k) (capacity m) s)).free = true
        then none else (entryAt m (probeIdx (hash k) (capacity m) s)).inner.map Prod.snd
      rw [if_neg hfree, hgeq]

/-- C8 witness: the theorem at the reachable state with_capacity 4 over Nat
keys, vector values and the identity hash, at key 0. -/
theorem c8_witness :
    OpenAddressingMap.get (fun n : Nat => n)
        (with_capacity 4 : OpenAddressingMap Nat (CompactVec Nat)) 0
      = specLookup (fun n : Nat => n)
        (with_capacity 4 : OpenAddressingMap Nat (CompactVec Nat)) 0 ∧
    contains_key (fun n : Nat => n)
        (with_capacity 4 : OpenAddressingMap Nat (CompactVec Nat)) 0
      = (specLookup (fun n : Nat => n)
        (with_capacity 4 : OpenAddressingMap Nat (CompactVec Nat)) 0).isSome :=
  c8 (fun n : Nat => n) false id id (Reachable.base 4) 0

end CompactRS
